import Mathlib

/-!
Verification development for the chunked-download core of the arweave-s3
client library (`src/common/chunks.ts`) and its stream re-chunking utility
(`src/common/lib/stream/chunker`, known here through its tests and the
design document).

The embedding has three layers:

* exact integer models of the arithmetic the code performs, including a
  model `toDouble53` of the IEEE-754 binary64 rounding that
  `BigNumber.toNumber()` / `parseInt` introduce;
* a nondeterministic small-step machine for the async generator
  `concurrentDownloadChunkedData`, in which network completions are
  scheduled by an adversary, used to settle the ordering, byte-accounting
  and concurrency-window claims for every completion order;
* a pure functional transliteration of the same generator together with
  `downloadChunkedData`, used for the claims about the wrapper.

Byte buffers are `List ℕ`; offsets are `ℤ` (BigNumber values are exact
integers here); sizes are `ℕ`.
-/

namespace ArweaveS3

/-- `MAX_CHUNK_SIZE` imported from `lib/merkle`: the protocol's nominal
chunk size, `256 * 1024` bytes.  The merkle module is outside the excerpt;
the spec treats this constant as externally fixed. -/
def MAX_CHUNK_SIZE : ℕ := 262144

/-- Rounding of a nonnegative integer to the value of the nearest IEEE-754
binary64 double (53-bit significand, ties to even).  This models what
`BigNumber.toNumber()` (ECMAScript string-to-number conversion, which is
correctly rounded) and `parseInt` produce on an integer value, for values
far below the double overflow threshold `2^1024`, which covers every value
considered in this development.  Integers up to `2^53` are exactly
representable and returned unchanged; beyond that the low `e` bits are
rounded away, where `e` is the excess of the bit length over 53. -/
def toDouble53 (n : ℕ) : ℕ :=
  if n ≤ 2 ^ 53 then n
  else
    let e := Nat.log2 n - 52
    let q := n / 2 ^ e
    let r := n % 2 ^ e
    if r < 2 ^ (e - 1) then q * 2 ^ e
    else if 2 ^ (e - 1) < r then (q + 1) * 2 ^ e
    else if q % 2 = 0 then q * 2 ^ e else (q + 1) * 2 ^ e

/-- The chunk-count computation of `concurrentDownloadChunkedData`
(`chunks.ts:100`):

  const chunks = Math.ceil(size.dividedBy(MAX_CHUNK_SIZE).toNumber());

`size.dividedBy(MAX_CHUNK_SIZE)` is exact: `MAX_CHUNK_SIZE = 2^18`, so the
quotient's fractional part is `k / 2^18 = k * 5^18 / 10^18`, at most 18
decimal places, within BigNumber's default 20-decimal-place division
precision.  The exact rational `size / 2^18` is then converted by
`.toNumber()` to the nearest double; scaling by the power of two `2^-18` is
exact in binary floating point, so that double equals
`toDouble53 size / 2^18`.  `Math.ceil` on a double is exact (its result is
always exactly representable), giving `⌈toDouble53 size / 2^18⌉`, which for
naturals is the expression below. -/
def chunksComputed (size : ℕ) : ℕ :=
  (toDouble53 size + (MAX_CHUNK_SIZE - 1)) / MAX_CHUNK_SIZE

/-- `startOffset = endOffset.minus(size).plus(1)` (`chunks.ts:97`), exact
BigNumber integer arithmetic. -/
def startOffsetOf (size offset : ℕ) : ℤ := (offset : ℤ) - (size : ℤ) + 1

/-- The offset at which chunk `i` is requested:
`startOffset.plus(MAX_CHUNK_SIZE * currChunk)` (`chunks.ts:118/121/128`).
`startOffset.plus` is exact BigNumber arithmetic; the native-number product
`MAX_CHUNK_SIZE * currChunk` is exact for every index below `2^53` (the
factor `2^18` is a power of two), which covers all chunk indices for
contents below `2^71` bytes, the domain of this model. -/
def chunkOffset (startOffset : ℤ) (i : ℕ) : ℤ :=
  startOffset + (MAX_CHUNK_SIZE : ℤ) * i

/-- `parallelChunks = chunks - 2` (`chunks.ts:111`), a native number that
can be negative. -/
def parallelChunks (size : ℕ) : ℤ := (chunksComputed size : ℤ) - 2

/-- `concurrency = Math.min(parallelChunks, opts.concurrency)`
(`chunks.ts:113`); `opts.concurrency` defaults to 10 (`chunks.ts:91`). -/
def concurrencyOf (size : ℕ) (opt : ℤ) : ℤ := min (parallelChunks size) opt

/-- Sum of the byte lengths of chunks `0..n-1` under the length oracle
`len` (the length of the buffer the chunk endpoint returns for each chunk
index). -/
def sumLen (len : ℕ → ℕ) (n : ℕ) : ℕ := ((List.range n).map len).sum

/-- `currChunk++` (`chunks.ts:118/121/128/129`) and the loop counter `i++`
(`chunks.ts:118`) increment native doubles.  Doubles step through
consecutive integers exactly only up to `2^53`: the sum `2^53 + 1` is not
representable and rounds back to `2^53` (round-to-nearest, ties-to-even,
and the neighbour `2^53 + 2` has an odd significand), so from `2^53` on
the counter sticks — the increment saturates. -/
def satSucc (c : ℕ) : ℕ := if c < 2 ^ 53 then c + 1 else c

/-- The chunk indices the first `n` `downloadData` calls request, in call
order.  The counter starts at 0 and each call reads it and then applies
the saturating increment, so the k-th call (0-based) requests chunk index
`min k (2^53)`: indices ascend until `2^53` and then repeat `2^53`
forever. -/
def issuedSeq (n : ℕ) : List ℕ := (List.range n).map (fun k => min k (2 ^ 53))

section Machine

/-! ## Small-step machine for `concurrentDownloadChunkedData`

The async generator (`chunks.ts:90-134`) is modelled as a transition
system.  A state records the control location together with the FIFO
`processing` queue (as the chunk indices whose fetch promise it holds), the
`currChunk` counter, and the histories of issued, network-completed and
yielded chunk indices.  Network completions are a separate
nondeterministic step, so the reachable states cover every possible
completion order of the in-flight requests; awaiting a promise is modelled
by requiring enough completions of its chunk index to be recorded before
the corresponding yield step can fire (requests for the same index, which
the saturated counter produces, hold interchangeable promises: same
offset, same buffer).  The counter increments saturate at `2^53`
(`satSucc`), as the source's native-double `currChunk++` does. -/

/-- Control locations of the generator body, one per suspension-relevant
program point. -/
inductive PC where
  /-- the `for` loop at line 118, with its loop counter -/
  | phase1 (i : ℕ)
  /-- the `while` test at line 120 -/
  | phase2top
  /-- line 123: awaiting / yielding the head of `processing` -/
  | phase2await
  /-- the drain loop at line 126 -/
  | phase3
  /-- line 128, before issuing the first tail fetch -/
  | tail1issue
  /-- line 128, awaiting the issued chunk `j` -/
  | tail1await (j : ℕ)
  /-- the condition at line 129 -/
  | tail2test
  /-- line 129, awaiting the issued chunk `j` -/
  | tail2await (j : ℕ)
  /-- the size check at line 131 -/
  | finalTest
  /-- normal return (line 133) -/
  | done
  /-- the throw at line 131, reporting received and expected byte totals -/
  | errored (got expected : ℕ)
deriving DecidableEq

/-- A machine state of one generator invocation. -/
structure MState where
  pc : PC
  /-- chunk indices whose promise sits in the `processing` FIFO queue -/
  processing : List ℕ
  /-- the `currChunk` counter -/
  currChunk : ℕ
  /-- chunk indices whose fetch has been issued, in issue order -/
  issued : List ℕ
  /-- chunk indices whose fetch has completed, in completion order -/
  resolved : List ℕ
  /-- chunk indices yielded so far, in yield order -/
  yielded : List ℕ
deriving DecidableEq

/-- The generator starts at the top of the `for` loop with everything
empty (the metadata fetch and the plan arithmetic are the `size`/`opt`
parameters of the relation). -/
def initState : MState := ⟨.phase1 0, [], 0, [], [], []⟩

/-- `processedBytes` (`chunks.ts:98,104`): each fetch's `.then` callback
adds its buffer length when the fetch completes, so at every instant the
counter equals the sum of the lengths of the resolved fetches — the
completion order only permutes the additions. -/
def processedBytes (len : ℕ → ℕ) (s : MState) : ℕ := (s.resolved.map len).sum

/-- One step of the generator, or of the network.  Parameters: declared
`size`, configured concurrency `opt`, and the byte length `len i` of the
buffer the chunk endpoint returns for chunk index `i`. -/
inductive Step (size : ℕ) (opt : ℤ) (len : ℕ → ℕ) : MState → MState → Prop where
  /-- a pending network request completes; can interleave anywhere.  When
  the saturated counter has requested the same chunk index several times,
  each of those promises completes separately (the buffers are identical,
  the offset being the same), so a completion is enabled as long as fewer
  completions than requests have been recorded for the index. -/
  | resolve (s : MState) (i : ℕ) (hr : s.resolved.count i < s.issued.count i) :
      Step size opt len s { s with resolved := s.resolved ++ [i] }
  /-- line 118: `for (let i = 0; i < concurrency; i++) processing.push(downloadData(...))`;
  both `i++` and `currChunk++` are saturating double increments -/
  | phase1push (s : MState) (i : ℕ) (hpc : s.pc = .phase1 i)
      (hlt : (i : ℤ) < concurrencyOf size opt) :
      Step size opt len s { s with
        pc := .phase1 (satSucc i)
        processing := s.processing ++ [s.currChunk]
        issued := s.issued ++ [s.currChunk]
        currChunk := satSucc s.currChunk }
  /-- the `for` loop exits -/
  | phase1exit (s : MState) (i : ℕ) (hpc : s.pc = .phase1 i)
      (hge : ¬ (i : ℤ) < concurrencyOf size opt) :
      Step size opt len s { s with pc := .phase2top }
  /-- line 121: the `while` body pushes the next chunk's fetch
  (saturating increment of `currChunk`) -/
  | phase2push (s : MState) (hpc : s.pc = .phase2top)
      (hlt : (s.currChunk : ℤ) < parallelChunks size) :
      Step size opt len s { s with
        pc := .phase2await
        processing := s.processing ++ [s.currChunk]
        issued := s.issued ++ [s.currChunk]
        currChunk := satSucc s.currChunk }
  /-- line 120: the `while` loop exits -/
  | phase2exit (s : MState) (hpc : s.pc = .phase2top)
      (hge : ¬ (s.currChunk : ℤ) < parallelChunks size) :
      Step size opt len s { s with pc := .phase3 }
  /-- line 123: `yield processing.shift()!` — the head promise must have
  resolved before the yielded value can be delivered.  The queue yields
  occurrences of an index in issue order, so the head is the
  `(yielded.count hd + 1)`-th request for its index and its own promise
  has resolved exactly when at least that many completions for the index
  have been recorded. -/
  | phase2yield (s : MState) (hd : ℕ) (tl : List ℕ) (hpc : s.pc = .phase2await)
      (hproc : s.processing = hd :: tl)
      (hres : s.yielded.count hd < s.resolved.count hd) :
      Step size opt len s { s with
        pc := .phase2top
        processing := tl
        yielded := s.yielded ++ [hd] }
  /-- line 126: drain one queued fetch -/
  | phase3yield (s : MState) (hd : ℕ) (tl : List ℕ) (hpc : s.pc = .phase3)
      (hproc : s.processing = hd :: tl)
      (hres : s.yielded.count hd < s.resolved.count hd) :
      Step size opt len s { s with
        pc := .phase3
        processing := tl
        yielded := s.yielded ++ [hd] }
  /-- line 126: the drain loop exits -/
  | phase3exit (s : MState) (hpc : s.pc = .phase3) (hproc : s.processing = []) :
      Step size opt len s { s with pc := .tail1issue }
  /-- line 128: issue the unconditional tail fetch (not queued in
  `processing`; the generator awaits it directly) -/
  | tail1go (s : MState) (hpc : s.pc = .tail1issue) :
      Step size opt len s { s with
        pc := .tail1await s.currChunk
        issued := s.issued ++ [s.currChunk]
        currChunk := satSucc s.currChunk }
  /-- line 128: the tail fetch resolved and its buffer is yielded (the
  awaited promise is the last request for its index, so all recorded
  requests for it must have completed) -/
  | tail1yield (s : MState) (j : ℕ) (hpc : s.pc = .tail1await j)
      (hres : s.yielded.count j < s.resolved.count j) :
      Step size opt len s { s with
        pc := .tail2test
        yielded := s.yielded ++ [j] }
  /-- line 129, true branch: `size.isGreaterThan(processedBytes)` -/
  | tail2go (s : MState) (hpc : s.pc = .tail2test)
      (hgt : processedBytes len s < size) :
      Step size opt len s { s with
        pc := .tail2await s.currChunk
        issued := s.issued ++ [s.currChunk]
        currChunk := satSucc s.currChunk }
  /-- line 129, false branch -/
  | tail2skip (s : MState) (hpc : s.pc = .tail2test)
      (hle : ¬ processedBytes len s < size) :
      Step size opt len s { s with pc := .finalTest }
  /-- line 129: the second tail fetch resolved and its buffer is yielded -/
  | tail2yield (s : MState) (j : ℕ) (hpc : s.pc = .tail2await j)
      (hres : s.yielded.count j < s.resolved.count j) :
      Step size opt len s { s with
        pc := .finalTest
        yielded := s.yielded ++ [j] }
  /-- line 131: the byte totals agree and the generator returns -/
  | finalOk (s : MState) (hpc : s.pc = .finalTest)
      (heq : processedBytes len s = size) :
      Step size opt len s { s with pc := .done }
  /-- line 131: `throw new Error(got ...B, expected ...B)` -/
  | finalErr (s : MState) (hpc : s.pc = .finalTest)
      (hne : processedBytes len s ≠ size) :
      Step size opt len s { s with pc := .errored (processedBytes len s) size }

/-- States reachable by some interleaving of generator progress and
network completions. -/
def Reach (size : ℕ) (opt : ℤ) (len : ℕ → ℕ) (s : MState) : Prop :=
  Relation.ReflTransGen (Step size opt len) initState s

/-- Number of in-flight fetches: requests issued minus promises
completed (each request's promise completes exactly once, also when the
saturated counter requested the same chunk index several times). -/
def outstanding (s : MState) : ℕ := s.issued.length - s.resolved.length

/-- Control locations belonging to the parallel phase
(`chunks.ts:118-126`). -/
def parallelPhase : PC → Prop
  | .phase1 _ | .phase2top | .phase2await | .phase3 => True
  | _ => False

/-- Control locations belonging to the tail phase (`chunks.ts:128-129`). -/
def tailPhase : PC → Prop
  | .tail1issue | .tail1await _ | .tail2test | .tail2await _ => True
  | _ => False

/-- Terminal control locations. -/
def terminalPC : PC → Prop
  | .done | .errored _ _ => True
  | _ => False

end Machine

section PureModel

/-! ## Pure functional transliteration of the generator and of
`downloadChunkedData`

The yielded sequence and the final check of the generator are independent
of the network completion order (the machine model above proves this), so
the generator also denotes a function from the metadata and the chunk
oracle to its outputs.  The loops below carry an explicit iteration bound
equal to the number of iterations the source loop performs when that loop
terminates, together with the source loop's own guard; counter increments
saturate at `2^53` as in the source (`satSucc`).  When the saturated
counter keeps a source loop's guard true forever (`parallelChunks`, or a
configured concurrency, beyond `2^53`) the source generator never
finishes, and the fuelled denotation is not used in that regime. -/

/-- Output of one pure generator run: the buffers it yielded, and the
size-mismatch error thrown at the end, if any (`chunks.ts:131`), carrying
the received and the declared byte totals. -/
structure GenOut where
  buffers : List (List ℕ)
  sizeErr : Option (ℕ × ℕ)
deriving DecidableEq

/-- The `for` loop at `chunks.ts:118`: push the first `concurrency`
fetches.  Returns the `processing` queue (as fetch offsets) and the
updated `currChunk`. -/
def pushLoop (startOffset : ℤ) (conc : ℤ) :
    ℕ → ℕ → ℕ → List ℤ → List ℤ × ℕ
  | 0, _, currChunk, processing => (processing, currChunk)
  | fuel + 1, i, currChunk, processing =>
    if (i : ℤ) < conc then
      pushLoop startOffset conc fuel (satSucc i) (satSucc currChunk)
        (processing ++ [chunkOffset startOffset currChunk])
    else (processing, currChunk)

/-- The `while` loop at `chunks.ts:120-124`: push the next parallel
fetch, then yield the head of the queue.  State: `currChunk`, the queue,
the yielded buffers, and `processedBytes`. -/
def phase2Loop (fetch : ℤ → List ℕ) (startOffset : ℤ) (parallel : ℤ) :
    ℕ → ℕ → List ℤ → List (List ℕ) → ℕ → List ℤ × ℕ × List (List ℕ) × ℕ
  | 0, currChunk, processing, yields, processed =>
      (processing, currChunk, yields, processed)
  | fuel + 1, currChunk, processing, yields, processed =>
    if (currChunk : ℤ) < parallel then
      match processing ++ [chunkOffset startOffset currChunk] with
      | [] => (processing, currChunk, yields, processed)
      | o :: rest =>
        let r := fetch o
        phase2Loop fetch startOffset parallel fuel (satSucc currChunk) rest
          (yields ++ [r]) (processed + r.length)
    else (processing, currChunk, yields, processed)

/-- The drain loop at `chunks.ts:126`: yield the remaining queued
fetches in FIFO order. -/
def drainLoop (fetch : ℤ → List ℕ) :
    List ℤ → List (List ℕ) → ℕ → List (List ℕ) × ℕ
  | [], yields, processed => (yields, processed)
  | o :: rest, yields, processed =>
    let r := fetch o
    drainLoop fetch rest (yields ++ [r]) (processed + r.length)

/-- Pure denotation of `concurrentDownloadChunkedData`
(`chunks.ts:90-134`) on parsed metadata `(sizeN, offsetN)` and chunk
oracle `fetch`.  `processedBytes` is accounted at each yield; at both
points where the source reads it (lines 129 and 131) every issued fetch
has already been awaited, so this agrees with the source's
accounting-at-completion for every completion order. -/
def concurrentDownloadFn (fetch : ℤ → List ℕ) (sizeN offsetN : ℕ)
    (opt : ℤ) : GenOut :=
  let startOffset := startOffsetOf sizeN offsetN
  let chunks := chunksComputed sizeN
  let parallel : ℤ := (chunks : ℤ) - 2
  let conc : ℤ := min parallel opt
  let p1 := pushLoop startOffset conc conc.toNat 0 0 []
  let p2 := phase2Loop fetch startOffset parallel (parallel - p1.2).toNat
      p1.2 p1.1 [] 0
  match p2 with
  | (processing2, curr2, yields2, processed2) =>
    let p3 := drainLoop fetch processing2 yields2 processed2
    let r1 := fetch (chunkOffset startOffset curr2)
    let yields4 := p3.1 ++ [r1]
    let processed4 := p3.2 + r1.length
    let curr4 := satSucc curr2
    if processed4 < sizeN then
      let r2 := fetch (chunkOffset startOffset curr4)
      let yields5 := yields4 ++ [r2]
      let processed5 := processed4 + r2.length
      if processed5 = sizeN then ⟨yields5, none⟩
      else ⟨yields5, some (processed5, sizeN)⟩
    else
      if processed4 = sizeN then ⟨yields4, none⟩
      else ⟨yields4, some (processed4, sizeN)⟩

/-- `data.set(chunkData, byte)` (`chunks.ts:84`) on a `Uint8Array`:
overwrite `chunk.length` bytes at position `byte`; a `RangeError` is
thrown (modelled as `none`) when the chunk does not fit. -/
def setAt (data chunk : List ℕ) (byte : ℕ) : Option (List ℕ) :=
  if byte + chunk.length ≤ data.length then
    some (data.take byte ++ chunk ++ data.drop (byte + chunk.length))
  else none

/-- The `for await` loop of `downloadChunkedData` (`chunks.ts:83-86`):
write each yielded chunk at the running byte offset. -/
def writeLoop (data : List ℕ) (byte : ℕ) : List (List ℕ) → Option (List ℕ)
  | [] => some data
  | c :: rest =>
    match setAt data c byte with
    | some d => writeLoop d (byte + c.length) rest
    | none => none

/-- The consuming half of `downloadChunkedData` (`chunks.ts:81-87`):
allocate the zero-filled output buffer of `size0` bytes, drain the
generator output `g` writing each buffer at the running offset, and
propagate the generator's end-of-stream error (or a write range error)
as failure. -/
def assembleChunks (size0 : ℕ) (g : GenOut) : Option (List ℕ) :=
  match writeLoop (List.replicate size0 0) 0 g.buffers with
  | some d => if g.sizeErr = none then some d else none
  | none => none

/-- `downloadChunkedData` (`chunks.ts:48-88`): fetch metadata, allocate
`new Uint8Array(parseInt(offsetResponse.size))`, then drain
`concurrentDownloadChunkedData` — which performs its own, second metadata
fetch — writing each chunk at the running offset.  `metaResp k` is the
metadata `(size, offset)` returned by the k-th metadata request of the
invocation; the buffer size goes through `parseInt`, i.e. a native
double, hence `toDouble53`.  Any error (chunk fetch aside, size mismatch,
out-of-range write) propagates, giving `none`. -/
def downloadChunkedData (metaResp : ℕ → ℕ × ℕ) (fetch : ℤ → List ℕ) :
    Option (List ℕ) :=
  let m0 := metaResp 0
  let size0 := toDouble53 m0.1
  let m1 := metaResp 1
  assembleChunks size0 (concurrentDownloadFn fetch m1.1 m1.2 10)

end PureModel

section Rechunker

/-! ## ByteAccumulator (`ChunkBuffer`) and FixedSizeRechunker (`chunker`)

The module `src/common/lib/stream/chunker` is part of this repository but
absent from the excerpt; only its tests (`tests/stream/chunker.test.ts`)
and the design document describe it.  The definitions below are therefore
modelled from the spec, sections 4.1 and 4.2. -/

/-- Total number of bytes buffered in a queue of byte segments. -/
def totalLen (segs : List (List ℕ)) : ℕ := (segs.map List.length).sum

/-- Modelled from the spec: the byte-removal core of
`ByteAccumulator.pop(n)` (spec 4.1) — remove `n` bytes from the head of
the segment queue, splicing across segments; a head segment holding more
than the needed bytes is split and its remainder kept at the head.
Callers guard `n ≤ totalLen segs`. -/
def popLoop : ℕ → List (List ℕ) → List ℕ × List (List ℕ)
  | _, [] => ([], [])
  | n, seg :: rest =>
    if n ≤ seg.length then
      (seg.take n, if n < seg.length then seg.drop n :: rest else rest)
    else
      let r := popLoop (n - seg.length) rest
      (seg ++ r.1, r.2)

/-- Modelled from the spec: `ChunkBuffer` (the spec's ByteAccumulator,
spec 4.1) — an ordered queue of byte segments awaiting consumption. -/
structure ChunkBuffer where
  buffers : List (List ℕ)
deriving DecidableEq

/-- Modelled from the spec: `push(bytes)` appends a segment to the tail
of the queue; no length constraint. -/
def ChunkBuffer.push (b : ChunkBuffer) (bytes : List ℕ) : ChunkBuffer :=
  ⟨b.buffers ++ [bytes]⟩

/-- Modelled from the spec: `pop(n)` removes exactly `n` bytes from the
head, failing with `InsufficientBufferError` (here `none`), without
consuming anything, when fewer than `n` bytes are buffered. -/
def ChunkBuffer.pop (b : ChunkBuffer) (n : ℕ) :
    Option (List ℕ × ChunkBuffer) :=
  if n ≤ totalLen b.buffers then
    some ((popLoop n b.buffers).1, ⟨(popLoop n b.buffers).2⟩)
  else none

/-- Modelled from the spec: `flush()` returns all buffered bytes
concatenated in order and resets the state to empty. -/
def ChunkBuffer.flush (b : ChunkBuffer) : List ℕ × ChunkBuffer :=
  (b.buffers.flatten, ⟨[]⟩)

/-- A call against a `ChunkBuffer`: a push of a byte segment, or a
`pop n`. -/
inductive BufOp where
  | push (bs : List ℕ)
  | pop (n : ℕ)
deriving DecidableEq

/-- Run a sequence of push/pop calls from a given buffer state,
collecting the popped bytes in order; `none` as soon as a pop lacks
bytes. -/
def runOps : ChunkBuffer → List BufOp → Option (List ℕ × ChunkBuffer)
  | b, [] => some ([], b)
  | b, .push bs :: rest => runOps (b.push bs) rest
  | b, .pop n :: rest =>
    match b.pop n with
    | some (out, b') =>
      match runOps b' rest with
      | some (outs, bf) => some (out ++ outs, bf)
      | none => none
    | none => none

/-- All bytes pushed by a sequence of calls, in order. -/
def pushedBytes : List BufOp → List ℕ
  | [] => []
  | .push bs :: rest => bs ++ pushedBytes rest
  | .pop _ :: rest => pushedBytes rest

/-- Modelled from the spec: the emit loop of the rechunker (spec 4.2) —
while at least `chunkSize` bytes are buffered, pop and yield one
`chunkSize`-byte buffer.  The fuel is an upper bound on the iteration
count (each iteration consumes `chunkSize ≥ 1` bytes, so `totalLen segs`
iterations always suffice); the loop's own guard is retained. -/
def emitLoop (chunkSize : ℕ) : ℕ → List (List ℕ) → List (List ℕ) × List (List ℕ)
  | 0, segs => ([], segs)
  | fuel + 1, segs =>
    if 0 < chunkSize ∧ chunkSize ≤ totalLen segs then
      let p := popLoop chunkSize segs
      let r := emitLoop chunkSize fuel p.2
      (p.1 :: r.1, r.2)
    else ([], segs)

/-- Modelled from the spec: processing of one arriving input buffer
(spec 4.2) — push it into the accumulator, then emit all full
`chunkSize`-byte buffers.  State: (emitted buffers, buffered segments). -/
def chunkerStepFn (chunkSize : ℕ) (st : List (List ℕ) × List (List ℕ))
    (input : List ℕ) : List (List ℕ) × List (List ℕ) :=
  let segs := st.2 ++ [input]
  let e := emitLoop chunkSize (totalLen segs) segs
  (st.1 ++ e.1, e.2)

/-- Modelled from the spec: `chunker(chunkSize, { flush })`
(spec 4.2) — feed every input buffer through the accumulator, emitting
fixed-size buffers; on input exhaustion, if `flush` is set and bytes
remain buffered, yield them as one final shorter buffer; an empty
trailing buffer is never produced. -/
def chunkerRun (chunkSize : ℕ) (flushOpt : Bool) (inputs : List (List ℕ)) :
    List (List ℕ) :=
  let r := inputs.foldl (chunkerStepFn chunkSize) ([], [])
  if flushOpt ∧ 0 < totalLen r.2 then r.1 ++ [r.2.flatten] else r.1

end Rechunker

section Invariant

/-! ## Inductive invariant of the machine -/

/-- The disjunction distinguishing the two ways the tail phase can end:
either the second tail fetch was skipped (exactly one request past the
parallel window was made) or it was issued because the bytes received
through the first tail chunk fell short of the declared size. -/
def tailBranch (size : ℕ) (len : ℕ → ℕ) (s : MState) : Prop :=
  (s.issued.length = (parallelChunks size).toNat + 1 ∧
    ¬ sumLen len ((parallelChunks size).toNat + 1) < size) ∨
  (s.issued.length = (parallelChunks size).toNat + 2 ∧
    sumLen len ((parallelChunks size).toNat + 1) < size)

/-- Shape of the queue, the issue count and the yield history at each
control location.  The control flow can only leave the parallel phase
when the guard `currChunk < parallelChunks` fails, which the saturated
counter (stuck at `2^53`) never lets happen once `parallelChunks`
exceeds `2^53`; hence every location from the drain loop on records
`parallelChunks ≤ 2^53` and an exact issue count. -/
def shapeInv (size : ℕ) (opt : ℤ) (len : ℕ → ℕ) (pc : PC) (s : MState) : Prop :=
  match pc with
  | .phase1 i =>
      i = s.currChunk ∧ s.yielded = [] ∧ s.processing = s.issued ∧
      (s.issued.length ≤ (concurrencyOf size opt).toNat ∨
        2 ^ 53 < concurrencyOf size opt)
  | .phase2top =>
      s.yielded ++ s.processing = s.issued ∧
      s.processing.length ≤ (concurrencyOf size opt).toNat ∧
      (s.issued.length ≤ (parallelChunks size).toNat ∨
        2 ^ 53 < parallelChunks size)
  | .phase2await =>
      s.yielded ++ s.processing = s.issued ∧
      s.processing.length ≤ (concurrencyOf size opt).toNat + 1 ∧
      (s.issued.length ≤ (parallelChunks size).toNat ∨
        2 ^ 53 < parallelChunks size)
  | .phase3 =>
      s.yielded ++ s.processing = s.issued ∧
      s.processing.length ≤ (concurrencyOf size opt).toNat ∧
      s.issued.length = (parallelChunks size).toNat ∧
      parallelChunks size ≤ 2 ^ 53
  | .tail1issue =>
      s.processing = [] ∧ s.yielded = s.issued ∧
      s.issued.length = (parallelChunks size).toNat ∧
      parallelChunks size ≤ 2 ^ 53
  | .tail1await j =>
      s.processing = [] ∧ s.issued = s.yielded ++ [j] ∧
      j = (parallelChunks size).toNat ∧
      s.issued.length = (parallelChunks size).toNat + 1 ∧
      parallelChunks size ≤ 2 ^ 53
  | .tail2test =>
      s.processing = [] ∧ s.yielded = s.issued ∧
      s.issued.length = (parallelChunks size).toNat + 1 ∧
      parallelChunks size ≤ 2 ^ 53
  | .tail2await j =>
      s.processing = [] ∧ s.issued = s.yielded ++ [j] ∧
      j = min ((parallelChunks size).toNat + 1) (2 ^ 53) ∧
      s.issued.length = (parallelChunks size).toNat + 2 ∧
      parallelChunks size ≤ 2 ^ 53 ∧
      sumLen len ((parallelChunks size).toNat + 1) < size
  | .finalTest =>
      s.processing = [] ∧ s.yielded = s.issued ∧
      parallelChunks size ≤ 2 ^ 53 ∧ tailBranch size len s
  | .done =>
      s.processing = [] ∧ s.yielded = s.issued ∧
      parallelChunks size ≤ 2 ^ 53 ∧ tailBranch size len s ∧
      (s.issued.map len).sum = size
  | .errored got expected =>
      s.processing = [] ∧ s.yielded = s.issued ∧
      parallelChunks size ≤ 2 ^ 53 ∧ tailBranch size len s ∧
      got = (s.issued.map len).sum ∧ expected = size ∧ got ≠ size

/-- The inductive invariant: the issue history is the saturating index
sequence (`min k (2^53)` for the k-th request) and `currChunk` is the
saturated request count; each index has at most as many completions as
requests and at most as many yields as completions; and the
control-location shape holds. -/
structure Inv (size : ℕ) (opt : ℤ) (len : ℕ → ℕ) (s : MState) : Prop where
  issued_eq : s.issued = issuedSeq s.issued.length
  curr_eq : s.currChunk = min s.issued.length (2 ^ 53)
  resolved_count : ∀ i, s.resolved.count i ≤ s.issued.count i
  yielded_count : ∀ i, s.yielded.count i ≤ s.resolved.count i
  shape : shapeInv size opt len s.pc s

end Invariant

section Scenarios

/-! ## Concrete scenarios used as witnesses and counterexamples -/

/-- A chunk server answering every request with one byte. -/
def demoLen : ℕ → ℕ := fun _ => 1

/-- A chunk server answering every request with an empty buffer. -/
def lenZero : ℕ → ℕ := fun _ => 0

/-- A chunk server whose every buffer is the single byte 5. -/
def fetchOne : ℤ → List ℕ := fun _ => [5]

/-- Terminal state of a one-chunk run: chunk 0 issued, resolved and
yielded, generator returned normally. -/
def demoDone : MState := ⟨.done, [], 1, [0], [0], [0]⟩

/-- Parallel-phase state with two fetches in flight reached under
configured concurrency 1 (size 786433, i.e. 4 chunks): chunk 1 was
pushed at line 121 while chunk 0 was still pending. -/
def c5state : MState := ⟨.phase2await, [0, 1], 2, [0, 1], [], []⟩

/-- Metadata oracle answering the first request with size 3 and the
second with size 2 (and end offset 1). -/
def exMeta : ℕ → ℕ × ℕ := fun k => if k = 0 then (3, 0) else (2, 1)

/-- Chunk oracle serving two bytes at offset 0. -/
def exFetch : ℤ → List ℕ := fun o => if o = 0 then [7, 9] else []

/-- A push/pop call sequence whose pop boundaries straddle the pushed
segment boundary. -/
def opsEx : List BufOp := [.push [1, 2, 3], .pop 2, .push [4], .pop 1]

/-- A chunk server answering every request with an empty buffer. -/
def emptyFetch : ℤ → List ℕ := fun _ => []

/-- A declared size just past the float-exact chunk range:
`2^18 * (2^53 + 4)` bytes.  Its computed chunk count is `2^53 + 4` (the
size is exactly representable as a double, being divisible by `2^19`),
so `parallelChunks = 2^53 + 2` exceeds the counter's saturation point
and the `while` loop at line 120 never exits. -/
def bigSize : ℕ := 2 ^ 18 * (2 ^ 53 + 4)

/-- The cruising state of the parallel phase under configured
concurrency 1 after `n` pushes of the `while` body: the `n`-th request
sits alone in the queue, the earlier `n` requests (the initial fill plus
the first `n - 1` `while` pushes) have completed and been yielded, and
the saturated counter reads `min (n+1) 2^53`.  Once `n` passes `2^53`
the pushed indices repeat `2^53`. -/
def cycleState (n : ℕ) : MState :=
  ⟨.phase2top, [min n (2 ^ 53)], min (n + 1) (2 ^ 53), issuedSeq (n + 1),
    issuedSeq n, issuedSeq n⟩

/-- The state of the initial window fill after `n` pushes of the `for`
body, none resolved: with a configured concurrency beyond `2^53` on a
content with `parallelChunks > 2^53`, the saturated loop counter keeps
the guard true and `n` grows without bound. -/
def fillState (n : ℕ) : MState :=
  ⟨.phase1 (min n (2 ^ 53)), issuedSeq n, min n (2 ^ 53), issuedSeq n, [], []⟩

end Scenarios

/-! ## Lemmas: the invariant is inductive -/

/-- The saturating increment tracks `min · (2^53)` of the exact count. -/
theorem satSucc_min (n : ℕ) : satSucc (min n (2 ^ 53)) = min (n + 1) (2 ^ 53) := by
  unfold satSucc
  split <;> omega

/-- One more request appends the saturated value of the request count. -/
theorem issuedSeq_succ (n : ℕ) :
    issuedSeq (n + 1) = issuedSeq n ++ [min n (2 ^ 53)] := by
  unfold issuedSeq
  rw [List.range_succ, List.map_append]
  rfl

/-- Below the saturation point the request sequence is the plain
ascending range of chunk indices. -/
theorem issuedSeq_eq_range {n : ℕ} (h : n ≤ 2 ^ 53 + 1) :
    issuedSeq n = List.range n := by
  unfold issuedSeq
  have hall : ∀ k ∈ List.range n, min k (2 ^ 53) = k := by
    intro k hk
    rw [List.mem_range] at hk
    omega
  rw [List.map_congr_left hall]
  exact List.map_id _

/-- Length of the request sequence. -/
theorem issuedSeq_length (n : ℕ) : (issuedSeq n).length = n := by
  unfold issuedSeq
  rw [List.length_map, List.length_range]

/-- Appending an occurrence of `a` keeps the counts dominated by a list
holding a strict count reserve at `a`. -/
theorem count_snoc_le {xs ys : List ℕ} {a : ℕ}
    (hall : ∀ i, xs.count i ≤ ys.count i) (ha : xs.count a < ys.count a)
    (i : ℕ) : (xs ++ [a]).count i ≤ ys.count i := by
  have hx := hall i
  rw [List.count_append]
  by_cases hia : i = a
  · subst hia
    have h1 : List.count i [i] = 1 := by simp
    omega
  · have h0 : List.count i [a] = 0 := by simp [hia]
    omega

/-- Countwise domination bounds the length. -/
theorem count_le_length {xs ys : List ℕ}
    (h : ∀ i, xs.count i ≤ ys.count i) : xs.length ≤ ys.length :=
  List.Subperm.length_le (List.subperm_ext_iff.mpr (fun x _ => h x))

/-- Once every issued request has been yielded, the completion history
is a permutation of the issue history (the counts agree index by
index), so the `processedBytes` counter — the sum of the completed
buffers' lengths, in completion order — equals the byte total of the
issued requests. -/
theorem processed_eq_issued (len : ℕ → ℕ) (s : MState)
    (hyi : s.yielded = s.issued)
    (hrc : ∀ i, s.resolved.count i ≤ s.issued.count i)
    (hyc : ∀ i, s.yielded.count i ≤ s.resolved.count i) :
    processedBytes len s = (s.issued.map len).sum := by
  have hperm : s.resolved.Perm s.issued := by
    rw [List.perm_iff_count]
    intro a
    have h1 := hrc a
    have h2 := hyc a
    rw [hyi] at h2
    omega
  unfold processedBytes
  exact (hperm.map len).sum_eq

/-- Through the tail phase the issued byte total is the plain ascending
sum: at most `2^53 + 1` requests are made by then. -/
theorem sum_issuedSeq (len : ℕ → ℕ) {n : ℕ} (h : n ≤ 2 ^ 53 + 1) :
    ((issuedSeq n).map len).sum = sumLen len n := by
  rw [issuedSeq_eq_range h]
  rfl

/-- One `downloadData` call extends the issue history consistently: the
appended index is the saturated request count, and the incremented
counter is the saturated successor count. -/
theorem push_invariants {s : MState}
    (hiss : s.issued = issuedSeq s.issued.length)
    (hcur : s.currChunk = min s.issued.length (2 ^ 53)) :
    s.issued ++ [s.currChunk] =
      issuedSeq (s.issued ++ [s.currChunk]).length ∧
    satSucc s.currChunk = min (s.issued ++ [s.currChunk]).length (2 ^ 53) := by
  have hlen : (s.issued ++ [s.currChunk]).length = s.issued.length + 1 := by
    simp
  constructor
  · rw [hlen, issuedSeq_succ, ← hcur, ← hiss]
  · rw [hlen, hcur, satSucc_min]

/-- The initial state satisfies the invariant. -/
theorem inv_init (size : ℕ) (opt : ℤ) (len : ℕ → ℕ) :
    Inv size opt len initState := by
  refine ⟨rfl, rfl, fun i => le_refl _, fun i => le_refl _, ?_⟩
  show shapeInv size opt len (.phase1 0) initState
  simp only [shapeInv]
  exact ⟨rfl, rfl, rfl, Or.inl (Nat.zero_le _)⟩

/-- Every step of the machine preserves the invariant. -/
theorem inv_step {size : ℕ} {opt : ℤ} {len : ℕ → ℕ} {s t : MState}
    (hInv : Inv size opt len s) (h : Step size opt len s t) :
    Inv size opt len t := by
  obtain ⟨hiss, hcur, hrc, hyc, hsh⟩ := hInv
  cases h with
  | resolve i hr =>
    refine ⟨hiss, hcur, count_snoc_le hrc hr, ?_, ?_⟩
    · intro j
      rw [List.count_append]
      exact le_trans (hyc j) (Nat.le_add_right _ _)
    · cases hpc : s.pc <;> rw [hpc] at hsh <;>
        simp only [shapeInv, tailBranch] at hsh ⊢ <;> exact hsh
  | phase1push i hpc hlt =>
    rw [hpc] at hsh; simp only [shapeInv] at hsh
    obtain ⟨hieq, hyld, hproc, hbnd⟩ := hsh
    obtain ⟨hiss2, hcur2⟩ := push_invariants hiss hcur
    refine ⟨hiss2, hcur2, ?_, hyc, ?_⟩
    · intro j
      rw [List.count_append]
      exact le_trans (hrc j) (Nat.le_add_right _ _)
    · simp only [shapeInv]
      have hguard : ((min s.issued.length (2 ^ 53) : ℕ) : ℤ) <
          concurrencyOf size opt := by
        rw [← hcur, ← hieq]
        exact hlt
      refine ⟨by rw [hieq], hyld, by rw [hproc], ?_⟩
      simp only [List.length_append, List.length_cons, List.length_nil]
      omega
  | phase1exit i hpc hge =>
    rw [hpc] at hsh; simp only [shapeInv] at hsh
    obtain ⟨hieq, hyld, hproc, hbnd⟩ := hsh
    refine ⟨hiss, hcur, hrc, hyc, ?_⟩
    simp only [shapeInv]
    have hguard : ¬ ((min s.issued.length (2 ^ 53) : ℕ) : ℤ) <
        concurrencyOf size opt := by
      rw [← hcur, ← hieq]
      exact hge
    have hCP : concurrencyOf size opt ≤ parallelChunks size := min_le_left _ _
    refine ⟨by rw [hyld, hproc]; simp, ?_, ?_⟩
    · rw [hproc]
      omega
    · omega
  | phase2push hpc hlt =>
    rw [hpc] at hsh; simp only [shapeInv] at hsh
    obtain ⟨hcat, hlen, hbnd⟩ := hsh
    obtain ⟨hiss2, hcur2⟩ := push_invariants hiss hcur
    refine ⟨hiss2, hcur2, ?_, hyc, ?_⟩
    · intro j
      rw [List.count_append]
      exact le_trans (hrc j) (Nat.le_add_right _ _)
    · simp only [shapeInv]
      have hguard : ((min s.issued.length (2 ^ 53) : ℕ) : ℤ) <
          parallelChunks size := by
        rw [← hcur]
        exact hlt
      refine ⟨?_, ?_, ?_⟩
      · rw [← List.append_assoc, hcat]
      · simp only [List.length_append, List.length_cons, List.length_nil]
        omega
      · simp only [List.length_append, List.length_cons, List.length_nil]
        omega
  | phase2exit hpc hge =>
    rw [hpc] at hsh; simp only [shapeInv] at hsh
    obtain ⟨hcat, hlen, hbnd⟩ := hsh
    refine ⟨hiss, hcur, hrc, hyc, ?_⟩
    simp only [shapeInv]
    have hguard : ¬ ((min s.issued.length (2 ^ 53) : ℕ) : ℤ) <
        parallelChunks size := by
      rw [← hcur]
      exact hge
    exact ⟨hcat, hlen, by omega, by omega⟩
  | phase2yield hd tl hpc hproc hres =>
    rw [hpc] at hsh; simp only [shapeInv] at hsh
    obtain ⟨hcat, hlen, hbnd⟩ := hsh
    refine ⟨hiss, hcur, hrc, count_snoc_le hyc hres, ?_⟩
    simp only [shapeInv]
    rw [hproc] at hcat hlen
    refine ⟨?_, ?_, hbnd⟩
    · rw [← hcat]
      simp
    · simp only [List.length_cons] at hlen
      omega
  | phase3yield hd tl hpc hproc hres =>
    rw [hpc] at hsh; simp only [shapeInv] at hsh
    obtain ⟨hcat, hlen, hneq, hPle⟩ := hsh
    refine ⟨hiss, hcur, hrc, count_snoc_le hyc hres, ?_⟩
    simp only [shapeInv]
    rw [hproc] at hcat hlen
    refine ⟨?_, ?_, hneq, hPle⟩
    · rw [← hcat]
      simp
    · simp only [List.length_cons] at hlen
      omega
  | phase3exit hpc hproc =>
    rw [hpc] at hsh; simp only [shapeInv] at hsh
    obtain ⟨hcat, hlen, hneq, hPle⟩ := hsh
    refine ⟨hiss, hcur, hrc, hyc, ?_⟩
    simp only [shapeInv]
    rw [hproc] at hcat
    exact ⟨hproc, by simpa using hcat, hneq, hPle⟩
  | tail1go hpc =>
    rw [hpc] at hsh; simp only [shapeInv] at hsh
    obtain ⟨hproc, hyi, hneq, hPle⟩ := hsh
    obtain ⟨hiss2, hcur2⟩ := push_invariants hiss hcur
    refine ⟨hiss2, hcur2, ?_, hyc, ?_⟩
    · intro j
      rw [List.count_append]
      exact le_trans (hrc j) (Nat.le_add_right _ _)
    · simp only [shapeInv]
      refine ⟨hproc, by rw [hyi], by omega, ?_, hPle⟩
      simp only [List.length_append, List.length_cons, List.length_nil]
      omega
  | tail1yield j hpc hres =>
    rw [hpc] at hsh; simp only [shapeInv] at hsh
    obtain ⟨hproc, hij, hjP, hneq, hPle⟩ := hsh
    refine ⟨hiss, hcur, hrc, count_snoc_le hyc hres, ?_⟩
    simp only [shapeInv]
    exact ⟨hproc, hij.symm, hneq, hPle⟩
  | tail2go hpc hgt =>
    rw [hpc] at hsh; simp only [shapeInv] at hsh
    obtain ⟨hproc, hyi, hneq, hPle⟩ := hsh
    have hjeq : s.currChunk = min ((parallelChunks size).toNat + 1) (2 ^ 53) := by
      omega
    obtain ⟨hiss2, hcur2⟩ := push_invariants hiss hcur
    have hpb : processedBytes len s =
        sumLen len ((parallelChunks size).toNat + 1) := by
      rw [processed_eq_issued len s hyi hrc hyc, hiss, hneq]
      exact sum_issuedSeq len (by omega)
    refine ⟨hiss2, hcur2, ?_, hyc, ?_⟩
    · intro k
      rw [List.count_append]
      exact le_trans (hrc k) (Nat.le_add_right _ _)
    · simp only [shapeInv]
      refine ⟨hproc, by rw [hyi], hjeq, ?_, hPle, ?_⟩
      · simp only [List.length_append, List.length_cons, List.length_nil]
        omega
      · rw [← hpb]
        exact hgt
  | tail2skip hpc hle =>
    rw [hpc] at hsh; simp only [shapeInv] at hsh
    obtain ⟨hproc, hyi, hneq, hPle⟩ := hsh
    have hpb : processedBytes len s =
        sumLen len ((parallelChunks size).toNat + 1) := by
      rw [processed_eq_issued len s hyi hrc hyc, hiss, hneq]
      exact sum_issuedSeq len (by omega)
    refine ⟨hiss, hcur, hrc, hyc, ?_⟩
    simp only [shapeInv, tailBranch]
    refine ⟨hproc, hyi, hPle, Or.inl ⟨hneq, ?_⟩⟩
    rw [← hpb]
    exact hle
  | tail2yield j hpc hres =>
    rw [hpc] at hsh; simp only [shapeInv] at hsh
    obtain ⟨hproc, hij, hjmin, hneq, hPle, hsum⟩ := hsh
    refine ⟨hiss, hcur, hrc, count_snoc_le hyc hres, ?_⟩
    simp only [shapeInv, tailBranch]
    exact ⟨hproc, hij.symm, hPle, Or.inr ⟨hneq, hsum⟩⟩
  | finalOk hpc heq =>
    rw [hpc] at hsh; simp only [shapeInv] at hsh
    obtain ⟨hproc, hyi, hPle, hbr⟩ := hsh
    have hpb : processedBytes len s = (s.issued.map len).sum :=
      processed_eq_issued len s hyi hrc hyc
    refine ⟨hiss, hcur, hrc, hyc, ?_⟩
    simp only [shapeInv, tailBranch] at hbr ⊢
    exact ⟨hproc, hyi, hPle, hbr, by rw [← hpb]; exact heq⟩
  | finalErr hpc hne =>
    rw [hpc] at hsh; simp only [shapeInv] at hsh
    obtain ⟨hproc, hyi, hPle, hbr⟩ := hsh
    have hpb : processedBytes len s = (s.issued.map len).sum :=
      processed_eq_issued len s hyi hrc hyc
    refine ⟨hiss, hcur, hrc, hyc, ?_⟩
    simp only [shapeInv, tailBranch] at hbr ⊢
    exact ⟨hproc, hyi, hPle, hbr, hpb, trivial, hne⟩

/-- Every reachable state satisfies the invariant. -/
theorem inv_reach {size : ℕ} {opt : ℤ} {len : ℕ → ℕ} {s : MState}
    (h : Reach size opt len s) : Inv size opt len s := by
  induction h with
  | refl => exact inv_init size opt len
  | tail _ hbc ih => exact inv_step ih hbc

/-! ## Lemmas derived from the invariant -/

/-- A prefix of `List.range n` is itself a range. -/
theorem prefix_range {ys zs : List ℕ} {n : ℕ} (h : ys ++ zs = List.range n) :
    ys = List.range ys.length := by
  have hle : ys.length ≤ n := by
    have := congrArg List.length h
    simp only [List.length_append, List.length_range] at this
    omega
  calc ys = (ys ++ zs).take ys.length := (List.take_left ys zs).symm
    _ = (List.range n).take ys.length := by rw [h]
    _ = List.range ys.length := by rw [List.take_range]; congr 1; omega

/-- In every state the machine can reach, the yield history is a prefix
of the issue history: the buffers come out in the order their fetches
were requested. -/
theorem yielded_prefix {size : ℕ} {opt : ℤ} {len : ℕ → ℕ} {s : MState}
    (hInv : Inv size opt len s) : ∃ rest, s.yielded ++ rest = s.issued := by
  obtain ⟨_, _, _, _, hsh⟩ := hInv
  cases hpc : s.pc <;> rw [hpc] at hsh <;> simp only [shapeInv] at hsh
  case phase1 i => exact ⟨s.issued, by rw [hsh.2.1]; rfl⟩
  case phase2top => exact ⟨s.processing, hsh.1⟩
  case phase2await => exact ⟨s.processing, hsh.1⟩
  case phase3 => exact ⟨s.processing, hsh.1⟩
  case tail1issue => exact ⟨[], by rw [List.append_nil]; exact hsh.2.1⟩
  case tail1await j => exact ⟨[j], hsh.2.1.symm⟩
  case tail2test => exact ⟨[], by rw [List.append_nil]; exact hsh.2.1⟩
  case tail2await j => exact ⟨[j], hsh.2.1.symm⟩
  case finalTest => exact ⟨[], by rw [List.append_nil]; exact hsh.2.1⟩
  case done => exact ⟨[], by rw [List.append_nil]; exact hsh.2.1⟩
  case errored g e => exact ⟨[], by rw [List.append_nil]; exact hsh.2.1⟩

/-- With a float-exact chunk count (at most `2^53 + 1`) the guards cut
every loop off before the counter saturates: at most `2^53 + 1` fetches
are ever requested. -/
theorem issued_len_le {size : ℕ} {opt : ℤ} {len : ℕ → ℕ} {s : MState}
    (hInv : Inv size opt len s) (hsmall : chunksComputed size ≤ 2 ^ 53 + 1) :
    s.issued.length ≤ 2 ^ 53 + 1 := by
  obtain ⟨_, _, _, _, hsh⟩ := hInv
  have hP : parallelChunks size = (chunksComputed size : ℤ) - 2 := rfl
  have hC : concurrencyOf size opt ≤ parallelChunks size := min_le_left _ _
  cases hpc : s.pc <;> rw [hpc] at hsh <;>
    simp only [shapeInv, tailBranch] at hsh
  case phase1 i =>
    obtain ⟨-, -, -, hbnd⟩ := hsh
    omega
  case phase2top =>
    obtain ⟨-, -, hbnd⟩ := hsh
    omega
  case phase2await =>
    obtain ⟨-, -, hbnd⟩ := hsh
    omega
  case phase3 =>
    obtain ⟨-, -, hneq, hPle⟩ := hsh
    omega
  case tail1issue =>
    obtain ⟨-, -, hneq, hPle⟩ := hsh
    omega
  case tail1await j =>
    obtain ⟨-, -, -, hneq, hPle⟩ := hsh
    omega
  case tail2test =>
    obtain ⟨-, -, hneq, hPle⟩ := hsh
    omega
  case tail2await j =>
    obtain ⟨-, -, -, hneq, hPle, -⟩ := hsh
    omega
  case finalTest =>
    obtain ⟨-, -, hPle, hbr⟩ := hsh
    rcases hbr with ⟨hn, -⟩ | ⟨hn, -⟩ <;> omega
  case done =>
    obtain ⟨-, -, hPle, hbr, -⟩ := hsh
    rcases hbr with ⟨hn, -⟩ | ⟨hn, -⟩ <;> omega
  case errored g e =>
    obtain ⟨-, -, hPle, hbr, -, -, -⟩ := hsh
    rcases hbr with ⟨hn, -⟩ | ⟨hn, -⟩ <;> omega

/-- In every state reachable on a content with a float-exact chunk count
(at most `2^53 + 1`), the yield history is an initial segment of the
chunk indices `0, 1, 2, …` in order: the generator has yielded chunks
`0..k-1`, in ascending index order, with no gap and no repetition —
whatever the completion order was.  (Past that range the saturated
counter repeats index `2^53` and this fails: see the C1
counterexample.) -/
theorem yielded_is_range {size : ℕ} {opt : ℤ} {len : ℕ → ℕ} {s : MState}
    (hInv : Inv size opt len s) (hsmall : chunksComputed size ≤ 2 ^ 53 + 1) :
    s.yielded = List.range s.yielded.length := by
  obtain ⟨rest, hcat⟩ := yielded_prefix hInv
  have hlen := issued_len_le hInv hsmall
  have hrange : s.issued = List.range s.issued.length := by
    conv_lhs => rw [hInv.issued_eq]
    exact issuedSeq_eq_range hlen
  exact prefix_range (hcat.trans hrange)

/-- During the parallel phase, at most `min(parallelChunks, concurrency)
+ 1` fetches are in flight, provided the concurrency bound is at most
`2^53`: the window can transiently exceed the configured bound by
exactly the one fetch pushed at line 121 before the head of the queue
is awaited.  (A concurrency bound past `2^53` saturates the `for`
counter and the initial fill never stops: see the C5 counterexample.) -/
theorem outstanding_parallel {size : ℕ} {opt : ℤ} {len : ℕ → ℕ} {s : MState}
    (hInv : Inv size opt len s) (hCle : concurrencyOf size opt ≤ 2 ^ 53)
    (hp : parallelPhase s.pc) :
    outstanding s ≤ (concurrencyOf size opt).toNat + 1 := by
  obtain ⟨hiss, hcur, hrc, hyc, hsh⟩ := hInv
  have hyr : s.yielded.length ≤ s.resolved.length := count_le_length hyc
  unfold outstanding
  cases hpc : s.pc <;> rw [hpc] at hsh hp <;> simp only [shapeInv] at hsh <;>
    simp only [parallelPhase] at hp
  case phase1 i =>
    obtain ⟨-, -, -, hbnd⟩ := hsh
    omega
  case phase2top =>
    obtain ⟨hcat, hlen, -⟩ := hsh
    have hc := congrArg List.length hcat
    simp only [List.length_append] at hc
    omega
  case phase2await =>
    obtain ⟨hcat, hlen, -⟩ := hsh
    have hc := congrArg List.length hcat
    simp only [List.length_append] at hc
    omega
  case phase3 =>
    obtain ⟨hcat, hlen, -, -⟩ := hsh
    have hc := congrArg List.length hcat
    simp only [List.length_append] at hc
    omega

/-- During the tail phase and at the end, at most one fetch is in
flight: the two tail chunks are requested strictly one at a time, after
the whole parallel window has drained. -/
theorem outstanding_tail {size : ℕ} {opt : ℤ} {len : ℕ → ℕ} {s : MState}
    (hInv : Inv size opt len s) (hp : tailPhase s.pc ∨ terminalPC s.pc) :
    outstanding s ≤ 1 := by
  obtain ⟨hiss, hcur, hrc, hyc, hsh⟩ := hInv
  have hyr : s.yielded.length ≤ s.resolved.length := count_le_length hyc
  unfold outstanding
  cases hpc : s.pc <;> rw [hpc] at hsh hp <;> simp only [shapeInv] at hsh <;>
    simp only [tailPhase, terminalPC] at hp
  case tail1issue =>
    obtain ⟨-, hyi, -, -⟩ := hsh
    have hc := congrArg List.length hyi
    omega
  case tail1await j =>
    obtain ⟨-, hij, -, -, -⟩ := hsh
    have hc := congrArg List.length hij
    simp only [List.length_append, List.length_cons, List.length_nil] at hc
    omega
  case tail2test =>
    obtain ⟨-, hyi, -, -⟩ := hsh
    have hc := congrArg List.length hyi
    omega
  case tail2await j =>
    obtain ⟨-, hij, -, -, -, -⟩ := hsh
    have hc := congrArg List.length hij
    simp only [List.length_append, List.length_cons, List.length_nil] at hc
    omega
  case finalTest =>
    obtain ⟨-, hyi, -, -⟩ := hsh
    have hc := congrArg List.length hyi
    omega
  case done =>
    obtain ⟨-, hyi, -, -, -⟩ := hsh
    have hc := congrArg List.length hyi
    omega
  case errored g e =>
    obtain ⟨-, hyi, -, -, -, -, -⟩ := hsh
    have hc := congrArg List.length hyi
    omega
  all_goals exact absurd hp (by simp)

/-- Characterization of the terminal states: everything issued was
yielded, in issue order; the issue history is the saturating index
sequence, its extent decided by whether the bytes through the first
tail chunk reach the declared size; and the run ends normally exactly
when the byte totals agree, the mismatch error carrying both totals. -/
theorem terminal_char {size : ℕ} {opt : ℤ} {len : ℕ → ℕ} {s : MState}
    (hInv : Inv size opt len s) (ht : terminalPC s.pc) :
    s.yielded = s.issued ∧
    s.issued = issuedSeq s.issued.length ∧
    parallelChunks size ≤ 2 ^ 53 ∧
    tailBranch size len s ∧
    (s.pc = .done ↔ (s.yielded.map len).sum = size) ∧
    (∀ g e, s.pc = .errored g e →
      g = (s.yielded.map len).sum ∧ e = size ∧ g ≠ size) := by
  obtain ⟨hiss, hcur, hrc, hyc, hsh⟩ := hInv
  cases hpc : s.pc <;> rw [hpc] at hsh ht <;> simp only [shapeInv] at hsh <;>
    simp only [terminalPC] at ht
  case done =>
    obtain ⟨hproc, hyi, hPle, hbr, hsum⟩ := hsh
    exact ⟨hyi, hiss, hPle, hbr, by simp [hyi, hsum], by simp⟩
  case errored g e =>
    obtain ⟨hproc, hyi, hPle, hbr, hg, he, hne⟩ := hsh
    refine ⟨hyi, hiss, hPle, hbr, ?_, ?_⟩
    · constructor
      · intro h
        exact absurd h (by simp)
      · intro h
        rw [hyi] at h
        exact absurd (hg.trans h) hne
    · intro g2 e2 h
      have hge : g2 = g ∧ e2 = e := by
        constructor <;> [injection h.symm; injection h.symm]
      refine ⟨?_, hge.2 ▸ he, ?_⟩
      · rw [hge.1, hyi]
        exact hg
      · rw [hge.1]
        exact hne

/-! ## Lemmas about the accumulator and the rechunker -/

/-- The buffered byte count is the length of the concatenation. -/
theorem totalLen_eq_flatten_length (segs : List (List ℕ)) :
    totalLen segs = segs.flatten.length := (List.length_flatten segs).symm

/-- `popLoop` removes exactly the requested bytes and preserves the
remaining ones: when enough bytes are buffered, the popped run has
exactly length `n` and re-concatenating popped bytes with what remains
gives back the original bytes. -/
theorem popLoop_spec : ∀ (segs : List (List ℕ)) (n : ℕ), n ≤ totalLen segs →
    (popLoop n segs).1.length = n ∧
    (popLoop n segs).1 ++ (popLoop n segs).2.flatten = segs.flatten := by
  intro segs
  induction segs with
  | nil =>
    intro n hn
    simp [totalLen] at hn
    subst hn
    simp [popLoop]
  | cons seg rest ih =>
    intro n hn
    by_cases hle : n ≤ seg.length
    · simp only [popLoop, if_pos hle]
      by_cases hlt : n < seg.length
      · simp only [if_pos hlt, List.flatten_cons]
        refine ⟨by simp [List.length_take]; omega, ?_⟩
        rw [← List.append_assoc, List.take_append_drop]
      · have hgoal : n = seg.length := by omega
        subst hgoal
        simp
    · simp only [popLoop, if_neg hle]
      have hrest : n - seg.length ≤ totalLen rest := by
        simp only [totalLen, List.map_cons, List.sum_cons] at hn
        simp only [totalLen]
        omega
      obtain ⟨hlen, hcat⟩ := ih (n - seg.length) hrest
      constructor
      · simp only [List.length_append, hlen]; omega
      · simp only [List.flatten_cons, List.append_assoc, hcat]

/-- Bytes remaining in the queue after a pop. -/
theorem popLoop_totalLen {segs : List (List ℕ)} {n : ℕ}
    (hn : n ≤ totalLen segs) :
    totalLen (popLoop n segs).2 = totalLen segs - n := by
  obtain ⟨hlen, hcat⟩ := popLoop_spec segs n hn
  have := congrArg List.length hcat
  simp only [List.length_append] at this
  rw [totalLen_eq_flatten_length, totalLen_eq_flatten_length]
  omega

/-- The emit loop of the rechunker, run with sufficient fuel: every
emitted buffer has exactly `chunkSize` bytes, emitted plus remaining
bytes are the input bytes in order, and fewer than `chunkSize` bytes
remain. -/
theorem emitLoop_spec (c : ℕ) (hc : 0 < c) :
    ∀ (fuel : ℕ) (segs : List (List ℕ)), totalLen segs ≤ fuel →
    (∀ b ∈ (emitLoop c fuel segs).1, b.length = c) ∧
    (emitLoop c fuel segs).1.flatten ++ (emitLoop c fuel segs).2.flatten =
      segs.flatten ∧
    totalLen (emitLoop c fuel segs).2 < c := by
  intro fuel
  induction fuel with
  | zero =>
    intro segs hf
    simp only [emitLoop]
    refine ⟨by simp, by simp, by omega⟩
  | succ fuel ih =>
    intro segs hf
    by_cases hcond : 0 < c ∧ c ≤ totalLen segs
    · simp only [emitLoop, if_pos hcond]
      obtain ⟨hplen, hpcat⟩ := popLoop_spec segs c hcond.2
      have hptl : totalLen (popLoop c segs).2 = totalLen segs - c :=
        popLoop_totalLen hcond.2
      have hrec := ih (popLoop c segs).2 (by omega)
      obtain ⟨hall, hcat, hrem⟩ := hrec
      refine ⟨?_, ?_, hrem⟩
      · intro b hb
        rcases List.mem_cons.mp hb with hb | hb
        · rw [hb]; exact hplen
        · exact hall b hb
      · simp only [List.flatten_cons, List.append_assoc, hcat, hpcat]
    · simp only [emitLoop, if_neg hcond]
      refine ⟨by simp, by simp, by omega⟩

/-- The uniform-length buffers emitted so far concatenate to a multiple
of the chunk size. -/
theorem flatten_length_uniform {c : ℕ} :
    ∀ {l : List (List ℕ)}, (∀ b ∈ l, b.length = c) →
    l.flatten.length = c * l.length := by
  intro l
  induction l with
  | nil => intro _; simp
  | cons b rest ih =>
    intro h
    simp only [List.flatten_cons, List.length_append, List.length_cons,
      h b (by simp), ih (fun x hx => h x (List.mem_cons_of_mem b hx))]
    ring

/-- The state invariant of the rechunker's fold over its input buffers:
all emitted buffers are full-size, no byte is lost or reordered, and
fewer than `chunkSize` bytes stay buffered. -/
theorem chunker_fold_inv (c : ℕ) (hc : 0 < c) :
    ∀ (inputs : List (List ℕ)) (st : List (List ℕ) × List (List ℕ)),
    (∀ b ∈ st.1, b.length = c) → totalLen st.2 < c →
    (∀ b ∈ (inputs.foldl (chunkerStepFn c) st).1, b.length = c) ∧
    (inputs.foldl (chunkerStepFn c) st).1.flatten ++
      (inputs.foldl (chunkerStepFn c) st).2.flatten =
      st.1.flatten ++ st.2.flatten ++ inputs.flatten ∧
    totalLen (inputs.foldl (chunkerStepFn c) st).2 < c := by
  intro inputs
  induction inputs with
  | nil =>
    intro st h1 h2
    simpa using ⟨h1, h2⟩
  | cons input rest ih =>
    intro st h1 h2
    simp only [List.foldl_cons]
    have hstep := emitLoop_spec c hc (totalLen (st.2 ++ [input]))
      (st.2 ++ [input]) le_rfl
    obtain ⟨hall, hcat, hrem⟩ := hstep
    have hnext := ih (chunkerStepFn c st input) ?_ ?_
    · obtain ⟨ha, hb, hrem'⟩ := hnext
      refine ⟨ha, ?_, hrem'⟩
      rw [hb]
      simp only [chunkerStepFn, List.flatten_append]
      have h12 : (emitLoop c (totalLen (st.2 ++ [input])) (st.2 ++ [input])).1.flatten ++
          (emitLoop c (totalLen (st.2 ++ [input])) (st.2 ++ [input])).2.flatten =
          st.2.flatten ++ input := by
        rw [hcat]; simp [List.flatten_append]
      calc (st.1.flatten ++
            (emitLoop c (totalLen (st.2 ++ [input])) (st.2 ++ [input])).1.flatten) ++
            (emitLoop c (totalLen (st.2 ++ [input])) (st.2 ++ [input])).2.flatten ++
            rest.flatten
          = st.1.flatten ++
            (((emitLoop c (totalLen (st.2 ++ [input])) (st.2 ++ [input])).1.flatten ++
            (emitLoop c (totalLen (st.2 ++ [input])) (st.2 ++ [input])).2.flatten) ++
            rest.flatten) := by simp [List.append_assoc]
        _ = st.1.flatten ++ ((st.2.flatten ++ input) ++ rest.flatten) := by rw [h12]
        _ = st.1.flatten ++ st.2.flatten ++ (input ++ rest.flatten) := by
            simp [List.append_assoc]
    · intro b hb
      simp only [chunkerStepFn] at hb
      rcases List.mem_append.mp hb with hb | hb
      · exact h1 b hb
      · exact hall b hb
    · simpa only [chunkerStepFn] using hrem

/-- Draining a run of push/pop calls never loses, duplicates or reorders
a byte: the popped output plus what remains buffered is exactly what was
pushed, after what was initially buffered. -/
theorem runOps_concat : ∀ (ops : List BufOp) (b : ChunkBuffer)
    (outs : List ℕ) (bf : ChunkBuffer),
    runOps b ops = some (outs, bf) →
    outs ++ bf.buffers.flatten = b.buffers.flatten ++ pushedBytes ops := by
  intro ops
  induction ops with
  | nil =>
    intro b outs bf h
    simp only [runOps, Option.some.injEq, Prod.mk.injEq] at h
    rw [← h.1, ← h.2]
    simp [pushedBytes]
  | cons op rest ih =>
    intro b outs bf h
    cases op with
    | push bs =>
      simp only [runOps] at h
      have := ih (b.push bs) outs bf h
      rw [this]
      simp [ChunkBuffer.push, pushedBytes, List.flatten_append]
    | pop n =>
      simp only [runOps] at h
      cases hpop : b.pop n with
      | none => simp [hpop] at h
      | some p =>
        obtain ⟨out, b'⟩ := p
        simp only [hpop] at h
        cases hrec : runOps b' rest with
        | none => simp [hrec] at h
        | some q =>
          obtain ⟨outs', bf'⟩ := q
          simp only [hrec, Option.some.injEq, Prod.mk.injEq] at h
          obtain ⟨houts, hbf⟩ := h
          unfold ChunkBuffer.pop at hpop
          by_cases hle : n ≤ totalLen b.buffers
          · rw [if_pos hle] at hpop
            simp only [Option.some.injEq, Prod.mk.injEq] at hpop
            obtain ⟨hout, hb'⟩ := hpop
            have hcat := (popLoop_spec b.buffers n hle).2
            have hrec2 := ih b' outs' bf' hrec
            have hb'buf : b'.buffers = (popLoop n b.buffers).2 := by
              rw [← hb']
            calc outs ++ bf.buffers.flatten
                = (out ++ outs') ++ bf'.buffers.flatten := by rw [houts, hbf]
              _ = out ++ (outs' ++ bf'.buffers.flatten) := by
                  rw [List.append_assoc]
              _ = out ++ (b'.buffers.flatten ++ pushedBytes rest) := by
                  rw [hrec2]
              _ = out ++ ((popLoop n b.buffers).2.flatten ++ pushedBytes rest) := by
                  rw [hb'buf]
              _ = (out ++ (popLoop n b.buffers).2.flatten) ++ pushedBytes rest := by
                  rw [List.append_assoc]
              _ = ((popLoop n b.buffers).1 ++ (popLoop n b.buffers).2.flatten) ++
                  pushedBytes rest := by rw [hout]
              _ = b.buffers.flatten ++ pushedBytes (BufOp.pop n :: rest) := by
                  rw [hcat]; simp [pushedBytes]
          · rw [if_neg hle] at hpop
            exact absurd hpop (by simp)

/-! ## Lemmas about the floating-point chunk-count pipeline -/

/-- `MAX_CHUNK_SIZE` is the power of two `2^18`. -/
theorem MAX_CHUNK_SIZE_eq : MAX_CHUNK_SIZE = 2 ^ 18 := by norm_num [MAX_CHUNK_SIZE]

/-- Doubles represent every integer up to `2^53` exactly. -/
theorem toDouble53_of_le {n : ℕ} (h : n ≤ 2 ^ 53) : toDouble53 n = n := by
  unfold toDouble53
  rw [if_pos h]

/-- A large integer divisible by `2^e`, where `e` is its bit-length
excess over 53, is also exactly representable (its significand needs at
most 53 bits), so the rounding returns it unchanged. -/
theorem toDouble53_of_dvd {n : ℕ} (hn : ¬ n ≤ 2 ^ 53)
    (hdvd : 2 ^ (Nat.log2 n - 52) ∣ n) : toDouble53 n = n := by
  unfold toDouble53
  rw [if_neg hn]
  have hr : n % 2 ^ (Nat.log2 n - 52) = 0 := Nat.mod_eq_zero_of_dvd hdvd
  simp only [hr]
  rw [if_pos (Nat.pos_pow_of_pos _ (by norm_num))]
  exact Nat.div_mul_cancel hdvd

/-- `toNumber` on the quotient for size `2^18 * (2^53 + 1)`: the exact
value `2^53 + 1` needs 54 significand bits, and round-to-nearest-even
lands on `2^53`; scaled back up, the conversion of this size loses its
low chunk. -/
theorem toDouble53_big : toDouble53 (2 ^ 18 * (2 ^ 53 + 1)) = 2 ^ 71 := by
  have hlog : Nat.log2 (2 ^ 18 * (2 ^ 53 + 1)) = 71 := by
    rw [Nat.log2_eq_log_two]
    exact Nat.log_eq_of_pow_le_of_lt_pow (by norm_num) (by norm_num)
  unfold toDouble53
  rw [if_neg (by norm_num)]
  simp only [hlog]
  norm_num

/-- The computed chunk count for size `2^18 * (2^53 + 1)`. -/
theorem chunksComputed_big_aux :
    (toDouble53 (2 ^ 18 * (2 ^ 53 + 1)) + (MAX_CHUNK_SIZE - 1)) /
      MAX_CHUNK_SIZE = 2 ^ 53 := by
  rw [toDouble53_big]
  norm_num [MAX_CHUNK_SIZE]

/-- The native product `MAX_CHUNK_SIZE * i` is an exact double for every
chunk index `i ≤ 2^53`: multiplying by the power of two `2^18` only
shifts the exponent. -/
theorem toDouble53_mul_exact {i : ℕ} (hi : i ≤ 2 ^ 53) :
    toDouble53 (MAX_CHUNK_SIZE * i) = MAX_CHUNK_SIZE * i := by
  by_cases hle : MAX_CHUNK_SIZE * i ≤ 2 ^ 53
  · exact toDouble53_of_le hle
  · refine toDouble53_of_dvd hle ?_
    rw [MAX_CHUNK_SIZE_eq]
    have hne : 2 ^ 18 * i ≠ 0 := by
      intro h
      rcases Nat.mul_eq_zero.mp h with h | h
      · exact absurd h (by norm_num)
      · subst h; exact hle (by norm_num)
    have hub : 2 ^ 18 * i ≤ 2 ^ 71 := by
      calc 2 ^ 18 * i ≤ 2 ^ 18 * 2 ^ 53 := Nat.mul_le_mul_left _ hi
        _ = 2 ^ 71 := by norm_num
    have hlog_le : Nat.log2 (2 ^ 18 * i) ≤ 71 := by
      by_contra hcon
      push_neg at hcon
      have := Nat.log2_self_le hne
      have h72 : 2 ^ 72 ≤ 2 ^ Nat.log2 (2 ^ 18 * i) :=
        Nat.pow_le_pow_right (by norm_num) (by omega)
      have : (2 : ℕ) ^ 72 ≤ 2 ^ 71 := le_trans (h72.trans this) hub
      norm_num at this
    by_cases h71 : Nat.log2 (2 ^ 18 * i) = 71
    · rw [h71]
      have h2_71 : 2 ^ 71 ≤ 2 ^ 18 * i := by
        have := Nat.log2_self_le hne
        rwa [h71] at this
      have heq : 2 ^ 18 * i = 2 ^ 71 := le_antisymm hub h2_71
      rw [heq]
      exact pow_dvd_pow 2 (by norm_num)
    · have hle18 : Nat.log2 (2 ^ 18 * i) - 52 ≤ 18 := by omega
      exact dvd_trans (pow_dvd_pow 2 hle18) (Dvd.intro i rfl)

/-- The computed chunk count for the size `2^18 * (2^53 + 4)` is exact:
the size is divisible by `2^19`, so its significand fits in 53 bits and
`toNumber` returns it unchanged; the exact ceiling is `2^53 + 4`. -/
theorem chunksComputed_bigSize : chunksComputed bigSize = 2 ^ 53 + 4 := by
  have hlog : Nat.log2 (2 ^ 18 * (2 ^ 53 + 4)) = 71 := by
    rw [Nat.log2_eq_log_two]
    exact Nat.log_eq_of_pow_le_of_lt_pow (by norm_num) (by norm_num)
  have hd : toDouble53 (2 ^ 18 * (2 ^ 53 + 4)) = 2 ^ 18 * (2 ^ 53 + 4) := by
    refine toDouble53_of_dvd (by norm_num) ?_
    rw [hlog]
    exact ⟨2 ^ 52 + 2, by ring⟩
  show chunksComputed (2 ^ 18 * (2 ^ 53 + 4)) = 2 ^ 53 + 4
  rw [chunksComputed, hd]
  norm_num [MAX_CHUNK_SIZE]

/-- `parallelChunks` for the big size: two past the saturation point,
so the guard of the `while` loop at line 120 can never fail. -/
theorem parallelChunks_bigSize : parallelChunks bigSize = 2 ^ 53 + 2 := by
  unfold parallelChunks
  rw [chunksComputed_bigSize]
  omega

/-- Configured concurrency 1 on the big size. -/
theorem concurrencyOf_bigSize_one : concurrencyOf bigSize 1 = 1 := by
  unfold concurrencyOf
  rw [parallelChunks_bigSize]
  exact min_eq_right (by norm_num)

/-- A configured concurrency of `2^53 + 4` (itself a representable
double) on the big size is cut to `parallelChunks = 2^53 + 2`, still
past the saturation point of the `for`-loop counter. -/
theorem concurrencyOf_bigSize_big :
    concurrencyOf bigSize (2 ^ 53 + 4) = 2 ^ 53 + 2 := by
  unfold concurrencyOf
  rw [parallelChunks_bigSize]
  exact min_eq_left (by norm_num)

/-! ## Concrete traces -/

/-- For a content whose computed chunk count is at most 1, every phase
of the generator before the tail is empty, and a run in which the single
tail fetch returns exactly the declared bytes terminates normally:
chunk 0 is issued, resolved, yielded, and the final check passes. -/
theorem reach_done_small (size : ℕ) (opt : ℤ) (len : ℕ → ℕ)
    (h1 : chunksComputed size ≤ 1) (h2 : ¬ len 0 < size) (h3 : len 0 = size) :
    Reach size opt len ⟨.done, [], 1, [0], [0], [0]⟩ := by
  have hP : parallelChunks size ≤ -1 := by
    unfold parallelChunks; omega
  have hC : concurrencyOf size opt ≤ -1 :=
    le_trans (min_le_left _ _) hP
  have r0 : Reach size opt len initState := .refl
  have r1 : Reach size opt len ⟨.phase2top, [], 0, [], [], []⟩ :=
    r0.tail (.phase1exit _ 0 rfl (by omega))
  have r2 : Reach size opt len ⟨.phase3, [], 0, [], [], []⟩ :=
    r1.tail (.phase2exit _ rfl (by simp; omega))
  have r3 : Reach size opt len ⟨.tail1issue, [], 0, [], [], []⟩ :=
    r2.tail (.phase3exit _ rfl rfl)
  have r4 : Reach size opt len ⟨.tail1await 0, [], 1, [0], [], []⟩ :=
    r3.tail (.tail1go _ rfl)
  have r5 : Reach size opt len ⟨.tail1await 0, [], 1, [0], [0], []⟩ :=
    r4.tail (.resolve _ 0 (by decide))
  have r6 : Reach size opt len ⟨.tail2test, [], 1, [0], [0], [0]⟩ :=
    r5.tail (.tail1yield _ 0 rfl (by decide))
  have r7 : Reach size opt len ⟨.finalTest, [], 1, [0], [0], [0]⟩ :=
    r6.tail (.tail2skip _ rfl (by simpa [processedBytes] using h2))
  exact r7.tail (.finalOk _ rfl (by simpa [processedBytes] using h3))

/-- Under configured concurrency 1 on a 4-chunk content, right after
line 121 pushes chunk 1 and before line 123 awaits chunk 0, two fetches
are outstanding. -/
theorem reach_c5state : Reach 786433 1 lenZero c5state := by
  have r0 : Reach 786433 1 lenZero initState := .refl
  have r1 : Reach 786433 1 lenZero ⟨.phase1 1, [0], 1, [0], [], []⟩ :=
    r0.tail (.phase1push _ 0 rfl (by decide))
  have r2 : Reach 786433 1 lenZero ⟨.phase2top, [0], 1, [0], [], []⟩ :=
    r1.tail (.phase1exit _ 1 rfl (by decide))
  exact r2.tail (.phase2push _ rfl (by decide))

/-- The yield history of the cruising state, as a rewriting rule (the
field of a state at a big argument must be read off, not evaluated). -/
theorem cycleState_yielded (n : ℕ) : (cycleState n).yielded = issuedSeq n := rfl

/-- The counter of the cruising state: the saturated push count. -/
theorem cycleState_currChunk (n : ℕ) :
    (cycleState n).currChunk = min (n + 1) (2 ^ 53) := rfl

/-- In the fill state after `n` pushes, nothing has completed: all `n`
requests are outstanding. -/
theorem outstanding_fillState (n : ℕ) : outstanding (fillState n) = n := by
  simp [outstanding, fillState, issuedSeq_length]

/-- Under configured concurrency 1 on the `2^53 + 4`-chunk content,
every cruising state of the parallel phase is reachable: the `while`
body pushes, the pending head completes, the head is yielded — over and
over.  Past `2^53` pushes the saturated counter re-requests chunk
`2^53` and the loop guard `currChunk < 2^53 + 2` never fails. -/
theorem reach_cycleState : ∀ n : ℕ, Reach bigSize 1 lenZero (cycleState n) := by
  intro n
  induction n with
  | zero =>
    have r0 : Reach bigSize 1 lenZero initState := .refl
    have r1 : Reach bigSize 1 lenZero
        ⟨.phase1 (satSucc 0), [0], satSucc 0, [0], [], []⟩ :=
      r0.tail (.phase1push _ 0 rfl
        (by rw [concurrencyOf_bigSize_one]; norm_num))
    have r2 : Reach bigSize 1 lenZero
        ⟨.phase2top, [0], satSucc 0, [0], [], []⟩ :=
      r1.tail (.phase1exit _ (satSucc 0) rfl
        (by rw [concurrencyOf_bigSize_one]; norm_num [satSucc]))
    exact r2
  | succ n ih =>
    have hguard : (((cycleState n).currChunk : ℕ) : ℤ) <
        parallelChunks bigSize := by
      rw [parallelChunks_bigSize]
      show (((min (n + 1) (2 ^ 53) : ℕ) : ℤ)) < 2 ^ 53 + 2
      omega
    have s1 : Reach bigSize 1 lenZero
        ⟨.phase2await, [min n (2 ^ 53), min (n + 1) (2 ^ 53)],
          satSucc (min (n + 1) (2 ^ 53)),
          issuedSeq (n + 1) ++ [min (n + 1) (2 ^ 53)],
          issuedSeq n, issuedSeq n⟩ :=
      ih.tail (.phase2push _ rfl hguard)
    rw [satSucc_min, ← issuedSeq_succ] at s1
    have hcnt : (issuedSeq n).count (min n (2 ^ 53)) <
        (issuedSeq (n + 1 + 1)).count (min n (2 ^ 53)) := by
      rw [issuedSeq_succ, issuedSeq_succ, List.count_append, List.count_append]
      have h1 : List.count (min n (2 ^ 53)) [min n (2 ^ 53)] = 1 := by simp
      omega
    have s2 : Reach bigSize 1 lenZero
        ⟨.phase2await, [min n (2 ^ 53), min (n + 1) (2 ^ 53)],
          min (n + 1 + 1) (2 ^ 53), issuedSeq (n + 1 + 1),
          issuedSeq n ++ [min n (2 ^ 53)], issuedSeq n⟩ :=
      s1.tail (.resolve _ (min n (2 ^ 53)) hcnt)
    rw [← issuedSeq_succ] at s2
    have hcnt2 : (issuedSeq n).count (min n (2 ^ 53)) <
        (issuedSeq (n + 1)).count (min n (2 ^ 53)) := by
      rw [issuedSeq_succ, List.count_append]
      have h1 : List.count (min n (2 ^ 53)) [min n (2 ^ 53)] = 1 := by simp
      omega
    have s3 : Reach bigSize 1 lenZero
        ⟨.phase2top, [min (n + 1) (2 ^ 53)], min (n + 1 + 1) (2 ^ 53),
          issuedSeq (n + 1 + 1), issuedSeq (n + 1),
          issuedSeq n ++ [min n (2 ^ 53)]⟩ :=
      s2.tail (.phase2yield _ (min n (2 ^ 53)) [min (n + 1) (2 ^ 53)]
        rfl rfl hcnt2)
    rw [← issuedSeq_succ] at s3
    exact s3

/-- With configured concurrency `2^53 + 4` on the `2^53 + 4`-chunk
content, the initial window fill never stops: the `for`-loop counter
saturates at `2^53 < concurrency`, so every push count is reachable —
no completion ever required. -/
theorem reach_fillState :
    ∀ n : ℕ, Reach bigSize (2 ^ 53 + 4) lenZero (fillState n) := by
  intro n
  induction n with
  | zero => exact .refl
  | succ n ih =>
    have hguard : ((min n (2 ^ 53) : ℕ) : ℤ) <
        concurrencyOf bigSize (2 ^ 53 + 4) := by
      rw [concurrencyOf_bigSize_big]
      omega
    have s1 : Reach bigSize (2 ^ 53 + 4) lenZero
        ⟨.phase1 (satSucc (min n (2 ^ 53))),
          issuedSeq n ++ [min n (2 ^ 53)], satSucc (min n (2 ^ 53)),
          issuedSeq n ++ [min n (2 ^ 53)], [], []⟩ :=
      ih.tail (.phase1push _ (min n (2 ^ 53)) rfl hguard)
    rw [satSucc_min, ← issuedSeq_succ] at s1
    exact s1

/-! ## The claims -/

/-- Counterexample to C1 as stated: ascending-index yields fail beyond
the float-exact range, because `currChunk++` saturates at `2^53`.  On
the `2^53 + 4`-chunk content (declared size `2^18 * (2^53 + 4)` with
metadata offset `size - 1`, so `startOffset = 0`, satisfying the
claim's hypotheses) under configured concurrency 1, the run that
completes each head promise as the `while` body awaits it reaches,
after `2^53 + 2` pushes of the body, a reachable state whose yield
history ends `…, 2^53 - 1, 2^53, 2^53` — not an initial segment of the
ascending chunk indices.  The counter is stuck at `2^53` (last
conjunct), so from the `2^53`-th request on the downloader re-requests
offset `startOffset + MAX_CHUNK_SIZE * 2^53` forever, and the loop
guard `currChunk < parallelChunks = 2^53 + 2` never fails: the
generator neither terminates nor advances past chunk `2^53`. -/
theorem claim_C1_counterexample :
    1 ≤ bigSize ∧
    bigSize - 1 ≤ bigSize - 1 ∧
    Reach bigSize 1
      (fun i =>
        (emptyFetch (chunkOffset (startOffsetOf bigSize (bigSize - 1)) i)).length)
      (cycleState (2 ^ 53 + 2)) ∧
    (cycleState (2 ^ 53 + 2)).yielded ≠
      List.range (cycleState (2 ^ 53 + 2)).yielded.length ∧
    (cycleState (2 ^ 53 + 2)).currChunk = 2 ^ 53 := by
  refine ⟨by norm_num [bigSize], le_rfl, reach_cycleState _, ?_, ?_⟩
  · rw [cycleState_yielded, issuedSeq_length]
    intro heq
    have hmem : (2 ^ 53 + 1) ∈ issuedSeq (2 ^ 53 + 2) := by
      rw [heq]
      exact List.mem_range.mpr (by omega)
    unfold issuedSeq at hmem
    obtain ⟨k, -, hk⟩ := List.mem_map.mp hmem
    omega
  · rw [cycleState_currChunk]
    omega

/-- C1 corrected: within the float-exact chunk range — a computed chunk
count of at most `2^53 + 1`, so that the saturating counter is never
pushed while already at `2^53` — for every content with metadata
`(size, offset)` with `size ≥ 1` and `offset ≥ size - 1`, and
regardless of the order in which in-flight chunk fetches complete (the
reachability relation quantifies over every completion schedule),
`concurrentDownloadChunkedData` yields chunk buffers in strictly
ascending chunk-index order: the history of yielded indices is always
exactly `0, 1, …, k-1`, so the i-th yielded buffer is the one fetched
at offset `startOffset + i * MAX_CHUNK_SIZE` with
`startOffset = offset - size + 1`, and the concatenation of the yielded
buffers is the fetched content bytes in ascending offset order.
Beyond that range the saturated counter repeats index `2^53` and the
ordering fails (see the counterexample). -/
theorem claim_C1 (size offset : ℕ) (opt : ℤ) (fetch : ℤ → List ℕ)
    (_hsz : 1 ≤ size) (_hoff : size - 1 ≤ offset)
    (hsmall : chunksComputed size ≤ 2 ^ 53 + 1) (s : MState)
    (hreach : Reach size opt
      (fun i => (fetch (chunkOffset (startOffsetOf size offset) i)).length) s) :
    s.yielded = List.range s.yielded.length ∧
    s.yielded.map (fun i => fetch (chunkOffset (startOffsetOf size offset) i)) =
      (List.range s.yielded.length).map
        (fun i => fetch (chunkOffset (startOffsetOf size offset) i)) ∧
    (s.yielded.map
        (fun i => fetch (chunkOffset (startOffsetOf size offset) i))).flatten =
      ((List.range s.yielded.length).map
        (fun i => fetch (chunkOffset (startOffsetOf size offset) i))).flatten := by
  have h := yielded_is_range (inv_reach hreach) hsmall
  exact ⟨h, by rw [← h], by rw [← h]⟩

/-- Witness for C1: the one-chunk scenario, with the server returning
the single byte 5 for every offset, run to completion. -/
theorem claim_C1_witness :
    (1 ≤ 1 ∧ 1 - 1 ≤ 0 ∧ chunksComputed 1 ≤ 2 ^ 53 + 1) ∧
    (demoDone.yielded = List.range demoDone.yielded.length ∧
     demoDone.yielded.map
        (fun i => fetchOne (chunkOffset (startOffsetOf 1 0) i)) =
      (List.range demoDone.yielded.length).map
        (fun i => fetchOne (chunkOffset (startOffsetOf 1 0) i)) ∧
     (demoDone.yielded.map
        (fun i => fetchOne (chunkOffset (startOffsetOf 1 0) i))).flatten =
      ((List.range demoDone.yielded.length).map
        (fun i => fetchOne (chunkOffset (startOffsetOf 1 0) i))).flatten) :=
  ⟨⟨le_rfl, by norm_num, by decide⟩,
    claim_C1 1 0 10 fetchOne le_rfl (by norm_num) (by decide) demoDone
      (reach_done_small 1 10 demoLen (by decide) (by decide) (by decide))⟩

/-- Counterexample to C3 as stated: the chunk-count arithmetic is not
carried out in arbitrary-precision integers.  For the declared size
`2^18 * (2^53 + 1)` (about 2.4 ZB, beyond the native safe-integer
range), `Math.ceil(size.dividedBy(MAX_CHUNK_SIZE).toNumber())` computes
`2^53`, while the exact value `⌈size / MAX_CHUNK_SIZE⌉` is
`2^53 + 1`: the conversion of the exact quotient to a native double
rounds `2^53 + 1` (54 significand bits) to `2^53`. -/
theorem claim_C3_counterexample :
    chunksComputed (2 ^ 18 * (2 ^ 53 + 1)) = 2 ^ 53 ∧
    (2 ^ 18 * (2 ^ 53 + 1) + (MAX_CHUNK_SIZE - 1)) / MAX_CHUNK_SIZE =
      2 ^ 53 + 1 ∧
    (2 ^ 53 : ℕ) ≠ 2 ^ 53 + 1 := by
  refine ⟨?_, by norm_num [MAX_CHUNK_SIZE], by norm_num⟩
  rw [chunksComputed]
  exact chunksComputed_big_aux

/-- C3 amended: `startOffset` and the base of each fetch offset use
exact arbitrary-precision (BigNumber) arithmetic, and the native
products `MAX_CHUNK_SIZE * i` are exact doubles for every index up to
`2^53`; but the chunk count goes through a native double
(`.toNumber()`), so it equals the exact `⌈size / MAX_CHUNK_SIZE⌉` only
within the float-exact range — in particular for every `size ≤ 2^53` —
and can differ beyond it. -/
theorem claim_C3 (size i : ℕ) (hsize : size ≤ 2 ^ 53) (hi : i ≤ 2 ^ 53) :
    chunksComputed size = (size + (MAX_CHUNK_SIZE - 1)) / MAX_CHUNK_SIZE ∧
    toDouble53 (MAX_CHUNK_SIZE * i) = MAX_CHUNK_SIZE * i := by
  constructor
  · rw [chunksComputed, toDouble53_of_le hsize]
  · exact toDouble53_mul_exact hi

/-- Witness for C3: a 5-byte content and chunk index 3. -/
theorem claim_C3_witness :
    ((5 : ℕ) ≤ 2 ^ 53 ∧ (3 : ℕ) ≤ 2 ^ 53) ∧
    (chunksComputed 5 = (5 + (MAX_CHUNK_SIZE - 1)) / MAX_CHUNK_SIZE ∧
      toDouble53 (MAX_CHUNK_SIZE * 3) = MAX_CHUNK_SIZE * 3) :=
  ⟨⟨by norm_num, by norm_num⟩, claim_C3 5 3 (by norm_num) (by norm_num)⟩

/-- Counterexample to C4 as stated: with declared size 0 the computed
chunk count is 0, yet the generator does not yield an empty sequence nor
refrain from fetching — the unconditional tail fetch at line 128 issues
a request for chunk 0 and yields its buffer (here an empty one, so the
run even terminates normally). -/
theorem claim_C4_counterexample :
    chunksComputed 0 = 0 ∧
    Reach 0 10 lenZero ⟨.done, [], 1, [0], [0], [0]⟩ ∧
    (⟨.done, [], 1, [0], [0], [0]⟩ : MState).issued ≠ [] ∧
    (⟨.done, [], 1, [0], [0], [0]⟩ : MState).yielded ≠ [] :=
  ⟨by decide,
    reach_done_small 0 10 lenZero (by decide) (by decide) (by decide),
    by simp, by simp⟩

/-- C4 amended: if the computed chunk count is 0 (declared size 0),
`concurrentDownloadChunkedData` does not yield an empty sequence: every
run that terminates has issued exactly one chunk fetch — chunk 0, at
`startOffset` — and yielded exactly that buffer, ending normally iff
the buffer was empty and with the size-mismatch error otherwise. -/
theorem claim_C4 (opt : ℤ) (len : ℕ → ℕ) (s : MState)
    (hreach : Reach 0 opt len s) (hterm : terminalPC s.pc) :
    s.issued = [0] ∧ s.yielded = [0] ∧ (s.pc = .done ↔ len 0 = 0) := by
  have hInv := inv_reach hreach
  obtain ⟨hyi, hiss, hPle, hbr, hdone, -⟩ := terminal_char hInv hterm
  have hP : (parallelChunks 0).toNat = 0 := by
    have h0 : chunksComputed 0 = 0 := by decide
    unfold parallelChunks
    rw [h0]
    decide
  have hn : s.issued.length = 1 := by
    rcases hbr with ⟨hcc, -⟩ | ⟨-, habs⟩
    · omega
    · exact absurd habs (by omega)
  have hiss1 : s.issued = [0] := by
    rw [hiss, hn]
    rfl
  refine ⟨hiss1, by rw [hyi, hiss1], ?_⟩
  rw [hdone, hyi, hiss1]
  simp

/-- Witness for C4: the size-0 run with an empty chunk buffer. -/
theorem claim_C4_witness :
    (⟨.done, [], 1, [0], [0], [0]⟩ : MState).issued = [0] ∧
    (⟨.done, [], 1, [0], [0], [0]⟩ : MState).yielded = [0] ∧
    ((⟨.done, [], 1, [0], [0], [0]⟩ : MState).pc = .done ↔ lenZero 0 = 0) :=
  claim_C4 10 lenZero ⟨.done, [], 1, [0], [0], [0]⟩
    (reach_done_small 0 10 lenZero (by decide) (by decide) (by decide))
    (by trivial)

/-- Counterexample to C5 as stated, in two parts.  First, the
parallel-phase window is not bounded by
`min(chunkCount - 2, configuredConcurrency)`: for a 4-chunk content
with configured concurrency 1 the bound is 1, yet between the push at
line 121 and the await at line 123 a schedule in which chunk 0 has not
yet completed leaves 2 fetches outstanding.  Second, once both the
chunk count and the configured concurrency exceed the saturation point
`2^53`, no bound holds at all: on the `2^53 + 4`-chunk content with
configured concurrency `2^53 + 4` (for-loop bound
`concurrency = 2^53 + 2`), the saturated loop counter keeps the
initial fill running forever, and after `2^53 + 4` pushes — none
completed — the outstanding count exceeds even `concurrency + 1`. -/
theorem claim_C5_counterexample :
    Reach 786433 1 lenZero c5state ∧ parallelPhase c5state.pc ∧
    min (chunksComputed 786433 - 2) 1 = 1 ∧
    (concurrencyOf 786433 1).toNat = 1 ∧
    outstanding c5state = 2 ∧
    Reach bigSize (2 ^ 53 + 4) lenZero (fillState (2 ^ 53 + 4)) ∧
    parallelPhase (fillState (2 ^ 53 + 4)).pc ∧
    (concurrencyOf bigSize (2 ^ 53 + 4)).toNat + 1 <
      outstanding (fillState (2 ^ 53 + 4)) := by
  refine ⟨reach_c5state, by trivial, by decide, by decide, by decide,
    reach_fillState _, by trivial, ?_⟩
  have h1 : outstanding (fillState (2 ^ 53 + 4)) = 2 ^ 53 + 4 :=
    outstanding_fillState _
  have h2 : (concurrencyOf bigSize (2 ^ 53 + 4)).toNat = 2 ^ 53 + 2 := by
    rw [concurrencyOf_bigSize_big]
    omega
  omega

/-- C5 corrected: during the parallel phase, as long as the configured
concurrency is at most `2^53`, the number of simultaneously outstanding
chunk fetches is at most
`min(chunkCount - 2, configuredConcurrency) + 1` — the configured
window is transiently exceeded by exactly the one fetch pushed at line
121 before the queue head is awaited.  (Past `2^53` the saturated
`for`-loop counter can keep the initial fill running forever, and the
outstanding count grows without bound: see the counterexample.)  The
two tail chunks are fetched strictly one at a time (at most one
outstanding fetch from the tail phase on), overlapping neither each
other nor the parallel window. -/
theorem claim_C5 (size : ℕ) (opt : ℤ) (len : ℕ → ℕ) (s : MState)
    (hreach : Reach size opt len s) :
    (opt ≤ 2 ^ 53 → parallelPhase s.pc →
      outstanding s ≤ (concurrencyOf size opt).toNat + 1) ∧
    ((tailPhase s.pc ∨ terminalPC s.pc) → outstanding s ≤ 1) := by
  have hInv := inv_reach hreach
  refine ⟨?_, outstanding_tail hInv⟩
  intro hopt hp
  exact outstanding_parallel hInv (le_trans (min_le_right _ _) hopt) hp

/-- Witness for C5: the two-in-flight state of the counterexample
scenario satisfies the corrected bound `1 + 1`. -/
theorem claim_C5_witness :
    ((1 : ℤ) ≤ 2 ^ 53 → parallelPhase c5state.pc →
      outstanding c5state ≤ (concurrencyOf 786433 1).toNat + 1) ∧
    ((tailPhase c5state.pc ∨ terminalPC c5state.pc) →
      outstanding c5state ≤ 1) :=
  claim_C5 786433 1 lenZero c5state reach_c5state

/-- C7: `chunker(chunkSize, flush:false)` over any input stream of total
byte length `L`, however the input is split into buffers, emits exactly
`L / chunkSize` buffers of exactly `chunkSize` bytes each, silently
dropping a nonzero remainder; with `flush:true` the same buffers are
emitted followed by one final buffer of `L % chunkSize` bytes exactly
when `L % chunkSize > 0` — an empty trailing buffer is never
produced. -/
theorem claim_C7 (c : ℕ) (hc : 0 < c) (inputs : List (List ℕ)) :
    (chunkerRun c false inputs).length = totalLen inputs / c ∧
    (∀ b ∈ chunkerRun c false inputs, b.length = c) ∧
    (totalLen inputs % c = 0 →
      chunkerRun c true inputs = chunkerRun c false inputs) ∧
    (0 < totalLen inputs % c →
      ∃ rem, chunkerRun c true inputs = chunkerRun c false inputs ++ [rem] ∧
        rem.length = totalLen inputs % c) := by
  obtain ⟨hall, hcat, hrem⟩ := chunker_fold_inv c hc inputs ([], [])
    (by simp) (by simpa [totalLen] using hc)
  set F := inputs.foldl (chunkerStepFn c) ([], []) with hF
  have hcat' : F.1.flatten ++ F.2.flatten = inputs.flatten := by
    simpa using hcat
  have hlen1 : F.1.flatten.length = c * F.1.length :=
    flatten_length_uniform hall
  have hLL : totalLen inputs = c * F.1.length + totalLen F.2 := by
    rw [totalLen_eq_flatten_length, ← hcat', List.length_append, hlen1,
      totalLen_eq_flatten_length]
  have hdm : totalLen inputs / c = F.1.length ∧
      totalLen inputs % c = totalLen F.2 :=
    (Nat.div_mod_unique hc).mpr ⟨by omega, hrem⟩
  have hfalse : chunkerRun c false inputs = F.1 := by
    simp [chunkerRun, hF]
  refine ⟨?_, ?_, ?_, ?_⟩
  · rw [hfalse, hdm.1]
  · intro b hb
    rw [hfalse] at hb
    exact hall b hb
  · intro h0
    have hz : totalLen F.2 = 0 := by omega
    simp [chunkerRun, hF, hz, hfalse]
  · intro hpos
    have hpos2 : 0 < totalLen F.2 := by omega
    refine ⟨F.2.flatten, ?_, ?_⟩
    · rw [hfalse]
      simp [chunkerRun, hF, hpos2]
    · rw [← totalLen_eq_flatten_length, ← hdm.2]

/-- Witness for C7: chunk size 2 over one 3-byte input buffer. -/
theorem claim_C7_witness :
    (0 < 2) ∧
    ((chunkerRun 2 false [[1, 2, 3]]).length = totalLen [[1, 2, 3]] / 2 ∧
    (∀ b ∈ chunkerRun 2 false [[1, 2, 3]], b.length = 2) ∧
    (totalLen [[1, 2, 3]] % 2 = 0 →
      chunkerRun 2 true [[1, 2, 3]] = chunkerRun 2 false [[1, 2, 3]]) ∧
    (0 < totalLen [[1, 2, 3]] % 2 →
      ∃ rem, chunkerRun 2 true [[1, 2, 3]] =
        chunkerRun 2 false [[1, 2, 3]] ++ [rem] ∧
        rem.length = totalLen [[1, 2, 3]] % 2)) :=
  ⟨by norm_num, claim_C7 2 (by norm_num) [[1, 2, 3]]⟩

/-- C8: the accumulator round-trips every byte.  For every interleaved
sequence of pushes and pops starting from an empty `ChunkBuffer` in
which each `pop(n)` finds at least `n` bytes buffered (encoded by the
run succeeding), the concatenation of all popped bytes followed by the
final `flush()` output equals the concatenation of all pushed bytes in
their original order — however the pop boundaries align with the pushed
segment boundaries; and `flush()` on an empty accumulator yields zero
bytes. -/
theorem claim_C8 (ops : List BufOp) (outs : List ℕ) (bf : ChunkBuffer)
    (h : runOps ⟨[]⟩ ops = some (outs, bf)) :
    outs ++ (bf.flush).1 = pushedBytes ops ∧
    ((⟨[]⟩ : ChunkBuffer).flush).1 = ([] : List ℕ) := by
  constructor
  · have hcat := runOps_concat ops ⟨[]⟩ outs bf h
    simpa [ChunkBuffer.flush] using hcat
  · rfl

/-- Witness for C8: two pushes of 3 and 1 bytes, pops of 2 and 1 bytes
straddling the segment boundary, one byte left for the flush. -/
theorem claim_C8_witness :
    runOps ⟨[]⟩ opsEx = some ([1, 2, 3], ⟨[[4]]⟩) ∧
    ([1, 2, 3] ++ ((⟨[[4]]⟩ : ChunkBuffer).flush).1 = pushedBytes opsEx ∧
      ((⟨[]⟩ : ChunkBuffer).flush).1 = ([] : List ℕ)) :=
  ⟨by decide, claim_C8 opsEx [1, 2, 3] ⟨[[4]]⟩ (by decide)⟩

/-- `Uint8Array.set` keeps the target buffer's length. -/
theorem setAt_length {data chunk : List ℕ} {byte : ℕ} {d : List ℕ}
    (h : setAt data chunk byte = some d) : d.length = data.length := by
  unfold setAt at h
  by_cases hle : byte + chunk.length ≤ data.length
  · rw [if_pos hle] at h
    simp only [Option.some.injEq] at h
    subst h
    simp only [List.length_append, List.length_take, List.length_drop]
    omega
  · rw [if_neg hle] at h
    exact absurd h (by simp)

/-- The write loop of `downloadChunkedData` keeps the output buffer at
its allocated length. -/
theorem writeLoop_length : ∀ (bufs : List (List ℕ)) (data : List ℕ)
    (byte : ℕ) (d : List ℕ),
    writeLoop data byte bufs = some d → d.length = data.length := by
  intro bufs
  induction bufs with
  | nil =>
    intro data byte d h
    simp only [writeLoop, Option.some.injEq] at h
    rw [← h]
  | cons cbuf rest ih =>
    intro data byte d h
    simp only [writeLoop] at h
    cases hset : setAt data cbuf byte with
    | none => simp [hset] at h
    | some d' =>
      simp only [hset] at h
      rw [ih d' (byte + cbuf.length) d h, setAt_length hset]

/-- `downloadChunkedData` is the composition of the second metadata
fetch, the generator run and the buffer assembly; the output buffer is
sized from the first response through the native-number parse. -/
theorem downloadChunkedData_eq (metaResp : ℕ → ℕ × ℕ)
    (fetch : ℤ → List ℕ) :
    downloadChunkedData metaResp fetch =
      assembleChunks (toDouble53 (metaResp 0).1)
        (concurrentDownloadFn fetch (metaResp 1).1 (metaResp 1).2 10) := rfl

/-- Whenever the assembly succeeds, the result has exactly the allocated
length. -/
theorem assembleChunks_length (size0 : ℕ) (g : GenOut) (d : List ℕ)
    (h : assembleChunks size0 g = some d) : d.length = size0 := by
  unfold assembleChunks at h
  cases hw : writeLoop (List.replicate size0 0) 0 g.buffers with
  | none =>
    simp only [hw] at h
    exact absurd h (by simp)
  | some d' =>
    simp only [hw] at h
    by_cases herr : g.sizeErr = none
    · rw [if_pos herr] at h
      simp only [Option.some.injEq] at h
      subst h
      rw [writeLoop_length _ _ _ _ hw]
      simp
    · rw [if_neg herr] at h
      exact absurd h (by simp)

/-- C9: `downloadChunkedData` performs two separate metadata requests
for the same identifier — one directly (line 79) and a second inside
`concurrentDownloadChunkedData` (line 92) — allocates its output buffer
from the first response's size parsed as a native number, and writes
each yielded chunk at the running byte offset; the two responses are
never checked for agreement (the concrete run below succeeds although
the reported sizes 3 and 2 differ), and the end-of-stream size
verification uses only the second response. -/
theorem claim_C9 :
    (∀ (metaResp : ℕ → ℕ × ℕ) (fetch : ℤ → List ℕ) (d : List ℕ),
      downloadChunkedData metaResp fetch = some d →
      d.length = toDouble53 (metaResp 0).1) ∧
    downloadChunkedData exMeta exFetch = some [7, 9, 0] ∧
    (exMeta 0).1 ≠ (exMeta 1).1 := by
  refine ⟨?_, by decide, by decide⟩
  intro metaResp fetch d h
  rw [downloadChunkedData_eq] at h
  exact assembleChunks_length _ _ _ h

/-- Witness for C9: the first part applied to the concrete mismatching
metadata pair. -/
theorem claim_C9_witness :
    downloadChunkedData exMeta exFetch = some [7, 9, 0] ∧
    ([7, 9, 0] : List ℕ).length = toDouble53 (exMeta 0).1 :=
  ⟨by decide, claim_C9.1 exMeta exFetch [7, 9, 0] (by decide)⟩

end ArweaveS3
